import Mathlib

/-!
Verification development for the audio tempo and key analysis engine of a
filesystem-backed music library player.  The server-side estimator lives in
src/server/src/lib/audioAnalysis.ts; the client-side beat-tracking variant
lives in src/client/src/workers/audioAnalysis.worker.ts.

Modelling conventions:
* JavaScript numbers are idealized as rationals; Math.floor, Math.round and
  the ceiling are given structural definitions (ratFloor, ratRound, ratCeil)
  proved equal to Mathlib's floor, round and ceiling.
* A Float32Array sample buffer is modelled as a length together with an index
  function; Float32Array gives O(1) random access and O(1) subarray views, so
  this mirrors the source's access pattern.
* Fallible or effectful steps (fs.stat, cache file reads, ffmpeg decoding)
  are modelled by explicit Option-valued environment fields.
* JavaScript while loops are modelled by fueled iteration with the loop guard
  kept inside the step function, plus sufficiency lemmas showing the fuel
  bound is inert (the loop has stabilized by then).
-/

attribute [local semireducible] Rat.add Rat.mul Rat.inv Rat.sub

set_option maxRecDepth 40000
set_option maxHeartbeats 4000000

namespace MusicAnalysis

/-- JavaScript Math.floor on a rational: rounding toward negative infinity,
here in the structural form num / den (integer division). -/
def ratFloor (q : ℚ) : ℤ := q.num / (q.den : ℤ)

/-- The ceiling of a rational, structurally. -/
def ratCeil (q : ℚ) : ℤ := - ratFloor (- q)

/-- JavaScript Math.round on a rational: round half toward positive
infinity, i.e. the floor of q + 1/2. -/
def ratRound (q : ℚ) : ℤ := ratFloor (q + 1 / 2)

theorem ratFloor_eq (q : ℚ) : ratFloor q = ⌊q⌋ := Rat.floor_def.symm

theorem ratCeil_eq (q : ℚ) : ratCeil q = ⌈q⌉ := by
  rw [ratCeil, ratFloor_eq, Int.floor_neg, neg_neg]

theorem ratRound_eq (q : ℚ) : ratRound q = round q := by
  rw [ratRound, ratFloor_eq, round_eq]

/-- Model of a Float32Array sample buffer: a length and an index function.
Out-of-bounds reads never occur on the code paths modelled here. -/
structure SampleBuf where
  len : ℕ
  get : ℕ → ℚ

/-- Float32Array.subarray(start, stop): an O(1) view, modelled by shifting
the index function.  (The source calls the second argument end, a Lean
keyword.) -/
def SampleBuf.subarray (b : SampleBuf) (start stop : ℕ) : SampleBuf :=
  ⟨stop - start, fun i => b.get (start + i)⟩

/-- Constant SAMPLE_RATE from src/server/src/lib/audioAnalysis.ts. -/
def SAMPLE_RATE : ℚ := 22050

/-- Constant BPM_MIN (server strategy). -/
def BPM_MIN : ℚ := 60

/-- Constant BPM_MAX (server strategy). -/
def BPM_MAX : ℚ := 200

/-- Constant BPM_WINDOW_SECONDS. -/
def BPM_WINDOW_SECONDS : ℚ := 30

/-- Constant BPM_HOP_SECONDS. -/
def BPM_HOP_SECONDS : ℚ := 15

/-- Constant BPM_MERGE_TOLERANCE. -/
def BPM_MERGE_TOLERANCE : ℚ := 2

/-- TempoSegment record; the source field end is a Lean keyword and is named
endTime here. -/
structure TempoSegment where
  start : ℚ
  endTime : ℚ
  bpm : ℚ
deriving DecidableEq, Repr

/-- Key mode, the strings "major" or "minor" in the source. -/
inductive Mode where
  | major
  | minor
deriving DecidableEq, Repr

/-- KeyEstimate record from src/server/src/types. -/
structure KeyEstimate where
  tonic : String
  mode : Mode
  confidence : ℚ
deriving DecidableEq, Repr

/-- SongAnalysis record from src/server/src/types.  beatTimestamps is an
optional field (absent in the server strategy, present in the client one). -/
structure SongAnalysis where
  bpm : Option ℚ
  bpmSegments : List TempoSegment
  beatTimestamps : Option (List ℚ)
  key : Option KeyEstimate
deriving DecidableEq, Repr

/-- roundTo from audioAnalysis.ts: Math.round(value * 10^d) / 10^d. -/
def roundTo (value : ℚ) (decimals : ℕ) : ℚ :=
  ((ratRound (value * 10 ^ decimals) : ℤ) : ℚ) / 10 ^ decimals

/-- The doubling loop of normalizeTempo (while value < BPM_MIN: value *= 2),
as fueled iteration; the guard stays inside, so surplus fuel is inert. -/
def upStep : ℕ → ℚ → ℚ
  | 0, v => v
  | n + 1, v => if v < BPM_MIN then upStep n (2 * v) else v

/-- The halving loop of normalizeTempo (while value > BPM_MAX: value /= 2),
as fueled iteration. -/
def downStep : ℕ → ℚ → ℚ
  | 0, v => v
  | n + 1, v => if BPM_MAX < v then downStep n (v / 2) else v

/-- Fuel bound for the doubling loop, sufficient for every positive input
(theorem le_upStep_upFuel below); on nonpositive inputs the source loop
diverges, and every claim about normalizeTempo assumes a positive input. -/
def upFuel (v : ℚ) : ℕ := (ratCeil (BPM_MIN / v)).toNat

/-- Fuel bound for the halving loop, sufficient for every input. -/
def downFuel (v : ℚ) : ℕ := (ratCeil (v / BPM_MAX)).toNat

/-- normalizeTempo from audioAnalysis.ts: octave folding into
[BPM_MIN, BPM_MAX]. -/
def normalizeTempo (v : ℚ) : ℚ :=
  downStep (downFuel (upStep (upFuel v) v)) (upStep (upFuel v) v)

/-! ### Lemmas on the octave-folding loops of normalizeTempo -/

theorem upStep_stopped (n : ℕ) (v : ℚ) (h : ¬ v < BPM_MIN) : upStep n v = v := by
  cases n with
  | zero => rfl
  | succ n => rw [upStep, if_neg h]

theorem downStep_stopped (n : ℕ) (v : ℚ) (h : ¬ BPM_MAX < v) : downStep n v = v := by
  cases n with
  | zero => rfl
  | succ n => rw [downStep, if_neg h]

theorem upStep_add (m n : ℕ) (v : ℚ) : upStep (m + n) v = upStep n (upStep m v) := by
  induction m generalizing v with
  | zero => rw [Nat.zero_add]; rfl
  | succ m ih =>
    by_cases h : v < BPM_MIN
    · rw [show upStep (m + 1) v = upStep m (2 * v) from by rw [upStep, if_pos h],
        show m + 1 + n = (m + n) + 1 from by omega, upStep, if_pos h, ih]
    · rw [upStep_stopped (m + 1 + n) v h, upStep_stopped (m + 1) v h, upStep_stopped n v h]

theorem downStep_add (m n : ℕ) (v : ℚ) : downStep (m + n) v = downStep n (downStep m v) := by
  induction m generalizing v with
  | zero => rw [Nat.zero_add]; rfl
  | succ m ih =>
    by_cases h : BPM_MAX < v
    · rw [show downStep (m + 1) v = downStep m (v / 2) from by rw [downStep, if_pos h],
        show m + 1 + n = (m + n) + 1 from by omega, downStep, if_pos h, ih]
    · rw [downStep_stopped (m + 1 + n) v h, downStep_stopped (m + 1) v h,
        downStep_stopped n v h]

theorem upStep_dichotomy (n : ℕ) (v : ℚ) :
    BPM_MIN ≤ upStep n v ∨ upStep n v = 2 ^ n * v := by
  induction n generalizing v with
  | zero => right; rw [pow_zero, one_mul]; rfl
  | succ n ih =>
    by_cases h : v < BPM_MIN
    · rw [upStep, if_pos h]
      rcases ih (2 * v) with h' | h'
      · left; exact h'
      · right; rw [h']; ring
    · left; rw [upStep_stopped _ _ h]; exact le_of_not_lt h

theorem downStep_dichotomy (n : ℕ) (v : ℚ) :
    downStep n v ≤ BPM_MAX ∨ downStep n v = v / 2 ^ n := by
  induction n generalizing v with
  | zero => right; rw [pow_zero, div_one]; rfl
  | succ n ih =>
    by_cases h : BPM_MAX < v
    · rw [downStep, if_pos h]
      rcases ih (v / 2) with h' | h'
      · left; exact h'
      · right; rw [h', pow_succ]; ring
    · left; rw [downStep_stopped _ _ h]; exact le_of_not_lt h

theorem upStep_bounded (n : ℕ) (v : ℚ) :
    upStep n v = v ∨ upStep n v < 2 * BPM_MIN := by
  induction n generalizing v with
  | zero => left; rfl
  | succ n ih =>
    by_cases h : v < BPM_MIN
    · rw [upStep, if_pos h]
      rcases ih (2 * v) with h' | h'
      · right
        rw [h']
        have h2 : (0 : ℚ) < 2 := by norm_num
        exact mul_lt_mul_of_pos_left h h2
      · right; exact h'
    · left; exact upStep_stopped _ _ h

theorem downStep_ge (n : ℕ) (v : ℚ) (h : BPM_MIN ≤ v) : BPM_MIN ≤ downStep n v := by
  induction n generalizing v with
  | zero => exact h
  | succ n ih =>
    by_cases hv : BPM_MAX < v
    · rw [downStep, if_pos hv]
      refine ih (v / 2) ?_
      rw [BPM_MAX] at hv
      rw [BPM_MIN] at *
      linarith
    · rw [downStep_stopped _ _ hv]; exact h

theorem upFuel_spec (v : ℚ) (h0 : 0 < v) : BPM_MIN ≤ 2 ^ upFuel v * v := by
  by_cases hv : v < BPM_MIN
  · have h1 : (1 : ℚ) < BPM_MIN / v := (one_lt_div h0).mpr hv
    have hcge : BPM_MIN / v ≤ (⌈BPM_MIN / v⌉ : ℚ) := Int.le_ceil _
    have hc1 : (1 : ℤ) < ⌈BPM_MIN / v⌉ := by exact_mod_cast lt_of_lt_of_le h1 hcge
    have hfuel : upFuel v = ⌈BPM_MIN / v⌉.toNat := by rw [upFuel, ratCeil_eq]
    have hnn : (0 : ℤ) ≤ ⌈BPM_MIN / v⌉ := by omega
    have hcast : ((⌈BPM_MIN / v⌉.toNat : ℕ) : ℚ) = (⌈BPM_MIN / v⌉ : ℚ) := by
      rw [show ((⌈BPM_MIN / v⌉.toNat : ℕ) : ℚ) = ((⌈BPM_MIN / v⌉.toNat : ℤ) : ℚ) from by
        push_cast; ring, Int.toNat_of_nonneg hnn]
    have hlt : ((⌈BPM_MIN / v⌉.toNat : ℕ) : ℚ) < 2 ^ ⌈BPM_MIN / v⌉.toNat := by
      exact_mod_cast Nat.lt_two_pow ⌈BPM_MIN / v⌉.toNat
    have h2 : BPM_MIN / v < 2 ^ upFuel v := by
      rw [hfuel]
      calc BPM_MIN / v ≤ (⌈BPM_MIN / v⌉ : ℚ) := hcge
        _ = ((⌈BPM_MIN / v⌉.toNat : ℕ) : ℚ) := hcast.symm
        _ < 2 ^ ⌈BPM_MIN / v⌉.toNat := hlt
    have := (div_lt_iff₀ h0).mp h2
    linarith
  · push_neg at hv
    have h2 : (1 : ℚ) ≤ 2 ^ upFuel v := one_le_pow₀ (by norm_num)
    calc BPM_MIN ≤ v := hv
      _ = 1 * v := (one_mul v).symm
      _ ≤ 2 ^ upFuel v * v := mul_le_mul_of_nonneg_right h2 (le_of_lt h0)

theorem downFuel_spec (v : ℚ) (h : BPM_MAX < v) : v / 2 ^ downFuel v ≤ BPM_MAX := by
  have h200 : (0 : ℚ) < BPM_MAX := by rw [BPM_MAX]; norm_num
  have h1 : (1 : ℚ) < v / BPM_MAX := (one_lt_div h200).mpr h
  have hcge : v / BPM_MAX ≤ (⌈v / BPM_MAX⌉ : ℚ) := Int.le_ceil _
  have hc1 : (1 : ℤ) < ⌈v / BPM_MAX⌉ := by exact_mod_cast lt_of_lt_of_le h1 hcge
  have hfuel : downFuel v = ⌈v / BPM_MAX⌉.toNat := by rw [downFuel, ratCeil_eq]
  have hnn : (0 : ℤ) ≤ ⌈v / BPM_MAX⌉ := by omega
  have hcast : ((⌈v / BPM_MAX⌉.toNat : ℕ) : ℚ) = (⌈v / BPM_MAX⌉ : ℚ) := by
    rw [show ((⌈v / BPM_MAX⌉.toNat : ℕ) : ℚ) = ((⌈v / BPM_MAX⌉.toNat : ℤ) : ℚ) from by
      push_cast; ring, Int.toNat_of_nonneg hnn]
  have hlt : ((⌈v / BPM_MAX⌉.toNat : ℕ) : ℚ) < 2 ^ ⌈v / BPM_MAX⌉.toNat := by
    exact_mod_cast Nat.lt_two_pow ⌈v / BPM_MAX⌉.toNat
  have h2 : v / BPM_MAX < 2 ^ downFuel v := by
    rw [hfuel]
    calc v / BPM_MAX ≤ (⌈v / BPM_MAX⌉ : ℚ) := hcge
      _ = ((⌈v / BPM_MAX⌉.toNat : ℕ) : ℚ) := hcast.symm
      _ < 2 ^ ⌈v / BPM_MAX⌉.toNat := hlt
  have hpow : (0 : ℚ) < 2 ^ downFuel v := by positivity
  rw [div_le_iff₀ hpow]
  have := (div_lt_iff₀ h200).mp h2
  linarith

theorem upStep_ge_min (v : ℚ) (h0 : 0 < v) : BPM_MIN ≤ upStep (upFuel v) v := by
  rcases upStep_dichotomy (upFuel v) v with h | h
  · exact h
  · rw [h]; exact upFuel_spec v h0

theorem downStep_result_le (u : ℚ) : downStep (downFuel u) u ≤ BPM_MAX := by
  by_cases h : BPM_MAX < u
  · rcases downStep_dichotomy (downFuel u) u with h' | h'
    · exact h'
    · rw [h']; exact downFuel_spec u h
  · rw [downStep_stopped _ _ h]; exact le_of_not_lt h

/-- The result of octave folding a positive value lies in
[BPM_MIN, BPM_MAX]. -/
theorem normalizeTempo_mem (v : ℚ) (h : 0 < v) :
    BPM_MIN ≤ normalizeTempo v ∧ normalizeTempo v ≤ BPM_MAX :=
  ⟨downStep_ge _ _ (upStep_ge_min v h), downStep_result_le _⟩

theorem upStep_stable (v : ℚ) (h0 : 0 < v) (m : ℕ) (hm : upFuel v ≤ m) :
    upStep m v = upStep (upFuel v) v := by
  obtain ⟨k, rfl⟩ := Nat.exists_eq_add_of_le hm
  rw [upStep_add]
  exact upStep_stopped k _ (not_lt.mpr (upStep_ge_min v h0))

theorem downStep_stable (u : ℚ) (n : ℕ) (hn : downFuel u ≤ n) :
    downStep n u = downStep (downFuel u) u := by
  obtain ⟨k, rfl⟩ := Nat.exists_eq_add_of_le hn
  rw [downStep_add]
  exact downStep_stopped k _ (not_lt.mpr (downStep_result_le u))

/-- Claim C5: for every strictly positive bpm the octave-folding loops of
normalizeTempo terminate (any fuel beyond the computed bound yields the same
value, i.e. the loops have stabilized) and the result lies in
[BPM_MIN, BPM_MAX] = [60, 200]. -/
theorem C5_normalizeTempo_range (bpm : ℚ) (h : 0 < bpm) :
    (BPM_MIN ≤ normalizeTempo bpm ∧ normalizeTempo bpm ≤ BPM_MAX) ∧
      (∀ m n : ℕ, upFuel bpm ≤ m → downFuel (upStep (upFuel bpm) bpm) ≤ n →
        downStep n (upStep m bpm) = normalizeTempo bpm) := by
  constructor
  · constructor
    · exact downStep_ge _ _ (upStep_ge_min bpm h)
    · exact downStep_result_le _
  · intro m n hm hn
    rw [normalizeTempo, upStep_stable bpm h m hm, downStep_stable _ n hn]

/-- Witness for C5 at bpm = 50: the folded tempo is 100, inside [60, 200]
(in particular a 50 BPM periodicity is never reported as 50). -/
theorem C5_normalizeTempo_range_witness :
    (0 : ℚ) < 50 ∧
      ((BPM_MIN ≤ normalizeTempo 50 ∧ normalizeTempo 50 ≤ BPM_MAX) ∧
        (∀ m n : ℕ, upFuel 50 ≤ m → downFuel (upStep (upFuel 50) 50) ≤ n →
          downStep n (upStep m 50) = normalizeTempo 50)) ∧
      normalizeTempo 50 = 100 :=
  ⟨by norm_num, C5_normalizeTempo_range 50 (by norm_num), by decide⟩

/-- The inner energy loop of estimateTempo: sum of squared samples over one
frame beginning at the given offset (sum += sample * sample). -/
def sumSquaresRange (b : SampleBuf) (offset count : ℕ) : ℚ :=
  (List.range count).foldl (fun s i => s + b.get (offset + i) * b.get (offset + i)) 0

/-- The per-frame energies of estimateTempo; frame number frame starts at
offset frame * hop, exactly as the running offset in the source. -/
def frameEnergies (b : SampleBuf) (frameCount frameSize hop : ℕ) : List ℚ :=
  (List.range frameCount).map (fun frame => sumSquaresRange b (frame * hop) frameSize)

/-- Half-wave rectified first difference of the energies (the raw onset
signal of estimateTempo, before mean subtraction). -/
def rawOnset (energies : List ℚ) : List ℚ :=
  List.zipWith (fun prev next => if next - prev > 0 then next - prev else 0)
    energies energies.tail

/-- The onset signal of estimateTempo: rectified differences with their mean
subtracted and clamped at zero. -/
def onsetSignal (energies : List ℚ) : List ℚ :=
  let raw := rawOnset energies
  let mean : ℚ := if 0 < raw.length then raw.sum / (raw.length : ℚ) else 0
  raw.map (fun v => max 0 (v - mean))

/-- Autocorrelation sum of the onset signal at one lag: the source sums
onset[i] * onset[i - lag] for i from lag to the end. -/
def autocorrAt (onset : List ℚ) (lag : ℕ) : ℚ :=
  (List.zipWith (fun a c => a * c) (onset.drop lag) onset).sum

/-- The lag-selection fold of estimateTempo: scan all candidate lags keeping
the first lag attaining the strictly largest correlation sum; state starts
at (bestLag, bestValue) = (0, 0). -/
def bestLagFold (onset : List ℚ) (lags : List ℕ) : ℕ × ℚ :=
  lags.foldl
    (fun best lag =>
      let s := autocorrAt onset lag
      if best.2 < s then (lag, s) else best)
    (0, 0)

/-- The candidate lag range of estimateTempo, minLag to maxLag inclusive. -/
def lagRange (minLag maxLag : ℤ) : List ℕ :=
  (List.range (maxLag + 1 - minLag).toNat).map (fun k => minLag.toNat + k)

/-- The part of estimateTempo after the energies are computed: onset signal,
autocorrelation scan over the lag range, octave folding of the winner. -/
def tempoFromEnergies (energies : List ℚ) (sampleRate : ℚ) : Option ℚ :=
  let hopSize : ℕ := 512
  let onset := onsetSignal energies
  let minLag : ℤ := max 1 (ratFloor (60 / BPM_MAX * sampleRate / (hopSize : ℚ)))
  let maxLag : ℤ := ratFloor (60 / BPM_MIN * sampleRate / (hopSize : ℚ))
  let best := bestLagFold onset (lagRange minLag maxLag)
  if best.1 = 0 then none else
  some (normalizeTempo (60 * sampleRate / ((best.1 : ℚ) * (hopSize : ℚ))))

/-- estimateTempo from audioAnalysis.ts (onset-autocorrelation tempo
estimate of one buffer): length guards, frame energies, then the
autocorrelation stage. -/
def estimateTempo (samples : SampleBuf) (sampleRate : ℚ) : Option ℚ :=
  if samples.len < 1024 * 2 then none else
  let frameCount : ℕ := (samples.len - 1024) / 512 + 1
  if frameCount ≤ 2 then none else
  tempoFromEnergies (frameEnergies samples frameCount 1024 512) sampleRate

/-- The merged record the source builds when two adjacent segments are
within tolerance: keep the left start, extend the end, duration-weighted
bpm. -/
def mergedSeg (last seg : TempoSegment) : TempoSegment :=
  let lastDuration := last.endTime - last.start
  let nextDuration := seg.endTime - seg.start
  let total := lastDuration + nextDuration
  { start := last.start
    endTime := max last.endTime seg.endTime
    bpm := (last.bpm * lastDuration + seg.bpm * nextDuration) / total }

/-- The body of mergeTempoSegments: last is the segment currently at the
tail of the merged array (the one the source mutates in place). -/
def mergeRun (last : TempoSegment) : List TempoSegment → List TempoSegment
  | [] => [last]
  | seg :: rest =>
    if |seg.bpm - last.bpm| ≤ BPM_MERGE_TOLERANCE then mergeRun (mergedSeg last seg) rest
    else last :: mergeRun seg rest

/-- mergeTempoSegments from audioAnalysis.ts (streaming left-to-right merge
of adjacent segments within BPM_MERGE_TOLERANCE). -/
def mergeTempoSegments : List TempoSegment → List TempoSegment
  | [] => []
  | seg :: rest => mergeRun seg rest

/-- The start offsets of the sliding-window loop in buildTempoSegments
(start = 0; start + window <= len; start += hop), assuming hop > 0 and
window <= len as established by the guards there. -/
def windowStartList (len window hop : ℕ) : List ℕ :=
  (List.range ((len - window) / hop + 1)).map (fun k => k * hop)

/-- The loop body of buildTempoSegments for one window start: estimate the
slice tempo and emit a provisional segment; the truthiness test
(if (!bpm) continue) is the zero test on the estimate. -/
def windowSegment (samples : SampleBuf) (sampleRate : ℚ) (w start : ℕ) :
    Option TempoSegment :=
  match estimateTempo (samples.subarray start (start + w)) sampleRate with
  | none => none
  | some bpm =>
    if bpm = 0 then none
    else some ⟨(start : ℚ) / sampleRate, ((start : ℚ) + (w : ℚ)) / sampleRate, bpm⟩

/-- The provisional (pre-merge) segments of buildTempoSegments. -/
def rawTempoSegments (samples : SampleBuf) (sampleRate : ℚ) : List TempoSegment :=
  let windowSamples : ℤ := ratFloor (sampleRate * BPM_WINDOW_SECONDS)
  let hopSamples : ℤ := ratFloor (sampleRate * BPM_HOP_SECONDS)
  if windowSamples ≤ 0 ∨ hopSamples ≤ 0 ∨ (samples.len : ℤ) < windowSamples then [] else
  (windowStartList samples.len windowSamples.toNat hopSamples.toNat).filterMap
    (windowSegment samples sampleRate windowSamples.toNat)

/-- buildTempoSegments from audioAnalysis.ts: sliding-window estimates
followed by the merge pass. -/
def buildTempoSegments (samples : SampleBuf) (sampleRate : ℚ) : List TempoSegment :=
  mergeTempoSegments (rawTempoSegments samples sampleRate)

/-- median from audioAnalysis.ts: ascending numeric sort (the comparator
(a, b) => a - b), middle element, or mean of the two middle elements.  The
sort is modelled by insertion sort, which agrees with every correct
ascending sort of rationals. -/
def median (values : List ℚ) : Option ℚ :=
  if values.length = 0 then none else
  let sorted := values.insertionSort (fun a b => a ≤ b)
  let mid := sorted.length / 2
  if sorted.length % 2 = 0 then some ((sorted.getD (mid - 1) 0 + sorted.getD mid 0) / 2)
  else some (sorted.getD mid 0)

/-- pickOverallBpm from audioAnalysis.ts.  Number.isFinite is identically
true in the rational idealization, so that filter is the identity; the
truthiness test (medianValue ? normalizeTempo(medianValue) : null) is the
zero test. -/
def pickOverallBpm (segments : List TempoSegment) : Option ℚ :=
  if segments.length = 0 then none else
  match median (segments.map (fun s => s.bpm)) with
  | none => none
  | some m => if m = 0 then none else some (normalizeTempo m)

/-- The ?? fallback of getSongAnalysis:
pickOverallBpm(tempoSegments) ?? estimateTempo(decoded, SAMPLE_RATE). -/
def overallBpm (tempoSegments : List TempoSegment) (decoded : SampleBuf) : Option ℚ :=
  match pickOverallBpm tempoSegments with
  | some v => some v
  | none => estimateTempo decoded SAMPLE_RATE

theorem overallBpm_nil (decoded : SampleBuf) :
    overallBpm [] decoded = estimateTempo decoded SAMPLE_RATE := rfl

/-- The truthiness test of getSongAnalysis on the assembled bpm:
bpm ? roundTo(bpm, 1) : null. -/
def reportedBpm : Option ℚ → Option ℚ
  | none => none
  | some b => if b = 0 then none else some (roundTo b 1)

/-- The rounding map applied to each reported segment in getSongAnalysis. -/
def reportedSegment (s : TempoSegment) : TempoSegment :=
  ⟨roundTo s.start 1, roundTo s.endTime 1, roundTo s.bpm 1⟩

/-- The analysis-assembly step of getSongAnalysis (lines 81 to 93 of
audioAnalysis.ts), with the key estimator passed as a function parameter:
the bpm and bpmSegments fields do not depend on it, and the actual key
estimator is modelled separately (its spectral core is transcendental). -/
def mkSongAnalysis (keyFn : SampleBuf → ℚ → Option KeyEstimate) (decoded : SampleBuf) :
    SongAnalysis :=
  { bpm := reportedBpm (overallBpm (buildTempoSegments decoded SAMPLE_RATE) decoded)
    bpmSegments := (buildTempoSegments decoded SAMPLE_RATE).map reportedSegment
    beatTimestamps := none
    key := keyFn decoded SAMPLE_RATE }

/-! ### Balanced evaluation bridge

Kernel reduction of a left fold is a deep chain, so concrete evaluations go
through a fueled divide-and-conquer sum, proved equal to sumSquaresRange. -/

/-- Balanced computation of sumSquaresRange: split the range in half while
fuel lasts, falling back to the direct fold on short ranges. -/
def balSumSq (b : SampleBuf) : ℕ → ℕ → ℕ → ℚ
  | 0, offset, count => sumSquaresRange b offset count
  | fuel + 1, offset, count =>
    if count ≤ 128 then sumSquaresRange b offset count
    else balSumSq b fuel offset (count / 2) +
      balSumSq b fuel (offset + count / 2) (count - count / 2)

theorem sumSquaresRange_eq_sum (b : SampleBuf) (offset count : ℕ) :
    sumSquaresRange b offset count =
      ((List.range count).map (fun i => b.get (offset + i) * b.get (offset + i))).sum := by
  rw [sumSquaresRange, List.sum_eq_foldl, List.foldl_map]

theorem sumSquaresRange_add (b : SampleBuf) (offset m n : ℕ) :
    sumSquaresRange b offset (m + n) =
      sumSquaresRange b offset m + sumSquaresRange b (offset + m) n := by
  have h : (List.range n).map ((fun i => b.get (offset + i) * b.get (offset + i)) ∘
        (fun x => m + x)) =
      (List.range n).map (fun i => b.get (offset + m + i) * b.get (offset + m + i)) :=
    List.map_congr_left fun i _ => by simp [Function.comp, Nat.add_assoc]
  simp only [sumSquaresRange_eq_sum, List.range_add, List.map_append, List.sum_append,
    List.map_map, h]

theorem balSumSq_eq (b : SampleBuf) :
    ∀ (fuel offset count : ℕ), balSumSq b fuel offset count = sumSquaresRange b offset count := by
  intro fuel
  induction fuel with
  | zero => intro offset count; rfl
  | succ fuel ih =>
    intro offset count
    rw [balSumSq]
    by_cases h : count ≤ 128
    · rw [if_pos h]
    · rw [if_neg h, ih, ih, ← sumSquaresRange_add]
      congr 1
      omega

theorem frameEnergies_eq_bal (b : SampleBuf) (frameCount frameSize hop : ℕ) :
    frameEnergies b frameCount frameSize hop =
      (List.range frameCount).map (fun frame => balSumSq b 12 (frame * hop) frameSize) := by
  simp [frameEnergies, balSumSq_eq]

/-- A buffer whose samples are 1 where a Boolean predicate holds and 0
elsewhere; all concrete counterexample buffers below have this shape. -/
def onesBuf (len : ℕ) (p : ℕ → Bool) : SampleBuf :=
  ⟨len, fun i => if p i then 1 else 0⟩

/-- Structural count of predicate hits among offset, ..., offset + n - 1. -/
def countRange (p : ℕ → Bool) (offset : ℕ) : ℕ → ℕ
  | 0 => 0
  | n + 1 => countRange p offset n + cond (p (offset + n)) 1 0

theorem countRange_eq (p : ℕ → Bool) (offset : ℕ) :
    ∀ n, countRange p offset n = (List.range n).countP (fun i => p (offset + i))
  | 0 => rfl
  | n + 1 => by
    rw [countRange, countRange_eq p offset n, List.range_succ, List.countP_append]
    cases h : p (offset + n) <;> simp [List.countP_cons, h]

/-- Balanced count of predicate hits in an index range, the fast evaluator
for frame energies of a onesBuf. -/
def balCount (p : ℕ → Bool) : ℕ → ℕ → ℕ → ℕ
  | 0, offset, count => countRange p offset count
  | fuel + 1, offset, count =>
    if count ≤ 256 then countRange p offset count
    else balCount p fuel offset (count / 2) +
      balCount p fuel (offset + count / 2) (count - count / 2)

theorem countP_range_add (p : ℕ → Bool) (offset m n : ℕ) :
    (List.range (m + n)).countP (fun i => p (offset + i)) =
      (List.range m).countP (fun i => p (offset + i)) +
        (List.range n).countP (fun i => p (offset + m + i)) := by
  rw [List.range_add, List.countP_append, List.countP_map]
  congr 1
  refine List.countP_congr fun i _ => ?_
  simp [Function.comp, Nat.add_assoc]

theorem balCount_eq (p : ℕ → Bool) :
    ∀ (fuel offset count : ℕ),
      balCount p fuel offset count = (List.range count).countP (fun i => p (offset + i)) := by
  intro fuel
  induction fuel with
  | zero => intro offset count; exact countRange_eq p offset count
  | succ fuel ih =>
    intro offset count
    rw [balCount]
    by_cases h : count ≤ 256
    · rw [if_pos h]; exact countRange_eq p offset count
    · rw [if_neg h, ih, ih]
      have hsplit := countP_range_add p offset (count / 2) (count - count / 2)
      have hc : count / 2 + (count - count / 2) = count := by omega
      rw [hc] at hsplit
      omega

theorem sum_map_onesSq (q : ℕ → Bool) :
    ∀ l : List ℕ,
      (l.map (fun i => (if q i then (1 : ℚ) else 0) * (if q i then (1 : ℚ) else 0))).sum =
        (l.countP q : ℕ) := by
  intro l
  induction l with
  | nil => simp
  | cons x l ih =>
    rw [List.map_cons, List.sum_cons, ih, List.countP_cons]
    by_cases h : q x <;> simp [h, add_comm]

theorem sumSquaresRange_onesBuf (len : ℕ) (p : ℕ → Bool) (offset count : ℕ) :
    sumSquaresRange (onesBuf len p) offset count =
      ((List.range count).countP (fun i => p (offset + i)) : ℕ) := by
  rw [sumSquaresRange_eq_sum]
  exact sum_map_onesSq (fun i => p (offset + i)) (List.range count)

theorem frameEnergies_onesBuf (len : ℕ) (p : ℕ → Bool) (frameCount frameSize hop : ℕ) :
    frameEnergies (onesBuf len p) frameCount frameSize hop =
      (List.range frameCount).map
        (fun frame => ((balCount p 12 (frame * hop) frameSize : ℕ) : ℚ)) := by
  simp [frameEnergies, balCount_eq, sumSquaresRange_onesBuf]

/-- Unfolding lemma for estimateTempo once the guards are known: the
estimate is the autocorrelation stage applied to the frame energies. -/
theorem estimateTempo_eval (b : SampleBuf) (r : ℚ) (fc : ℕ)
    (h1 : ¬ b.len < 1024 * 2) (h2 : (b.len - 1024) / 512 + 1 = fc) (h3 : ¬ fc ≤ 2) :
    estimateTempo b r = tempoFromEnergies (frameEnergies b fc 1024 512) r := by
  simp only [estimateTempo, h2, if_neg h1, if_neg h3]

/-- A subarray of a onesBuf is a onesBuf with shifted predicate; used to
evaluate the per-window tempo estimates of buildTempoSegments. -/
theorem onesBuf_subarray (len : ℕ) (p : ℕ → Bool) (start stop : ℕ) :
    (onesBuf len p).subarray start stop = onesBuf (stop - start) (fun i => p (start + i)) := by
  simp [onesBuf, SampleBuf.subarray]

/-! ### Claim C2: short buffers

The 512-sample blocks of the counterexample buffer hold cexC2w b ones each,
giving frame energies with rectified-difference spikes at onset positions 0
and 12, so the autocorrelation fallback path of getSongAnalysis finds lag 12
and reports a tempo even though the buffer is far shorter than one window. -/

/-- Ones count of block b of the C2 counterexample buffer. -/
def cexC2w (b : ℕ) : ℕ :=
  cond (((b % 2).beq 1).or (b.blt 2)) 0 (cond (b.blt 14) 1 2)

/-- Sample predicate of the C2 counterexample buffer: the first cexC2w b
samples of each 512-sample block are 1. -/
def cexC2p (i : ℕ) : Bool := (i % 512).blt (cexC2w (i / 512))

/-- The C2 counterexample buffer: 8192 samples (about 0.37 seconds at the
fixed 22050 Hz rate, far below the 30 second segment window). -/
def cexC2buf : SampleBuf := onesBuf 8192 cexC2p

/-- The frame energies of the C2 counterexample buffer. -/
def cexC2energies : List ℚ := [0, 1, 1, 1, 1, 1, 1, 1, 1, 1, 1, 1, 1, 2, 2]

theorem cexC2_energies_eq : frameEnergies cexC2buf 15 1024 512 = cexC2energies := by
  rw [cexC2buf, frameEnergies_onesBuf]
  decide

theorem cexC2_estimateTempo :
    estimateTempo cexC2buf SAMPLE_RATE = some (55125 / 512) := by
  rw [estimateTempo_eval cexC2buf SAMPLE_RATE 15 (by decide) (by decide) (by decide),
    cexC2_energies_eq]
  decide

theorem cexC2_raw : rawTempoSegments cexC2buf SAMPLE_RATE = [] := by
  simp only [rawTempoSegments]
  exact if_pos (by decide)

/-- Claim C2, counterexample: a decoded buffer of 8192 samples is shorter
than one full 30 second estimation window, and its assembled SongAnalysis
does have empty bpmSegments, but its overall bpm is 107.7 (via the
whole-buffer estimateTempo fallback), not null as the claim states. -/
theorem C2_counterexample :
    ((cexC2buf.len : ℤ) < ratFloor (SAMPLE_RATE * BPM_WINDOW_SECONDS)) ∧
      (mkSongAnalysis (fun _ _ => none) cexC2buf).bpmSegments = [] ∧
      (mkSongAnalysis (fun _ _ => none) cexC2buf).bpm = some (1077 / 10) := by
  have hseg : buildTempoSegments cexC2buf SAMPLE_RATE = [] := by
    rw [buildTempoSegments, cexC2_raw]; rfl
  refine ⟨by decide, ?_, ?_⟩
  · simp only [mkSongAnalysis, hseg, List.map_nil]
  · simp only [mkSongAnalysis, hseg, overallBpm_nil, cexC2_estimateTempo]
    decide

/-- Claim C2, amended: a buffer shorter than one full estimation window
yields an empty bpmSegments list, and the overall bpm is additionally null
whenever the buffer is also shorter than two whole estimation frames (2048
samples); for lengths in between, the source falls back to estimateTempo on
the whole buffer and may report a non-null bpm (see C2_counterexample). -/
theorem C2_short_buffer (keyFn : SampleBuf → ℚ → Option KeyEstimate) (b : SampleBuf)
    (hshort : (b.len : ℤ) < ratFloor (SAMPLE_RATE * BPM_WINDOW_SECONDS)) :
    (mkSongAnalysis keyFn b).bpmSegments = [] ∧
      (b.len < 2048 → (mkSongAnalysis keyFn b).bpm = none) := by
  have hraw : rawTempoSegments b SAMPLE_RATE = [] := by
    simp only [rawTempoSegments]
    exact if_pos (Or.inr (Or.inr hshort))
  have hseg : buildTempoSegments b SAMPLE_RATE = [] := by
    rw [buildTempoSegments, hraw]; rfl
  constructor
  · simp only [mkSongAnalysis, hseg, List.map_nil]
  · intro hlen
    have hT : estimateTempo b SAMPLE_RATE = none := by
      rw [estimateTempo]
      exact if_pos (by omega)
    simp only [mkSongAnalysis, hseg, overallBpm_nil, hT]
    rfl

theorem C2_short_buffer_witness :
    (((onesBuf 100 (fun _ => false)).len : ℤ) <
        ratFloor (SAMPLE_RATE * BPM_WINDOW_SECONDS)) ∧
      ((mkSongAnalysis (fun _ _ => none) (onesBuf 100 (fun _ => false))).bpmSegments = [] ∧
        ((onesBuf 100 (fun _ => false)).len < 2048 →
          (mkSongAnalysis (fun _ _ => none) (onesBuf 100 (fun _ => false))).bpm = none)) :=
  ⟨by decide, C2_short_buffer (fun _ _ => none) (onesBuf 100 (fun _ => false)) (by decide)⟩

/-! ### Claim C6: merging one adjacent pair -/

/-- Claim C6: two adjacent provisional segments whose bpm values differ by at
most the merge tolerance are combined into one segment spanning both
segments' time range, with bpm the duration-weighted average of the two. -/
theorem C6_merge_adjacent_pair (a b : TempoSegment)
    (htol : |b.bpm - a.bpm| ≤ BPM_MERGE_TOLERANCE)
    (ha : a.start < a.endTime) (hb : b.start < b.endTime) (hord : a.start ≤ b.start) :
    mergeTempoSegments [a, b] =
      [⟨min a.start b.start, max a.endTime b.endTime,
        (a.bpm * (a.endTime - a.start) + b.bpm * (b.endTime - b.start)) /
          ((a.endTime - a.start) + (b.endTime - b.start))⟩] := by
  rw [mergeTempoSegments, mergeRun, if_pos htol, mergeRun, mergedSeg, min_eq_left hord]

/-- Witness for C6 at the spec's test vector: windows [0, 30] at 119.4 BPM
and [15, 45] at 120.6 BPM merge into [0, 45] at exactly 120 BPM (the
duration-weighted average of equal-length windows). -/
theorem C6_merge_adjacent_pair_witness :
    (|(603 / 5 : ℚ) - 597 / 5| ≤ BPM_MERGE_TOLERANCE ∧
        (0 : ℚ) < 30 ∧ (15 : ℚ) < 45 ∧ (0 : ℚ) ≤ 15) ∧
      mergeTempoSegments [⟨0, 30, 597 / 5⟩, ⟨15, 45, 603 / 5⟩] =
        [⟨min (0 : ℚ) 15, max (30 : ℚ) 45,
          (597 / 5 * ((30 : ℚ) - 0) + 603 / 5 * ((45 : ℚ) - 15)) /
            (((30 : ℚ) - 0) + ((45 : ℚ) - 15))⟩] ∧
      mergeTempoSegments [⟨0, 30, 597 / 5⟩, ⟨15, 45, 603 / 5⟩] = [⟨0, 45, 120⟩] :=
  ⟨⟨by decide, by norm_num, by norm_num, by norm_num⟩,
    C6_merge_adjacent_pair ⟨0, 30, 597 / 5⟩ ⟨15, 45, 603 / 5⟩
      (by decide) (by norm_num) (by norm_num) (by norm_num),
    by decide⟩

/-! ### Preservation lemmas for the merge pass -/

/-- The per-segment invariant used for claims C1 and C10: positive duration
and bpm inside [lo, hi]. -/
def SegOk (lo hi : ℚ) (s : TempoSegment) : Prop :=
  s.start < s.endTime ∧ lo ≤ s.bpm ∧ s.bpm ≤ hi

theorem weighted_avg_mem (lo hi x y dx dy : ℚ)
    (hx : lo ≤ x) (hx' : x ≤ hi) (hy : lo ≤ y) (hy' : y ≤ hi)
    (hdx : 0 < dx) (hdy : 0 < dy) :
    lo ≤ (x * dx + y * dy) / (dx + dy) ∧ (x * dx + y * dy) / (dx + dy) ≤ hi := by
  have hsum : 0 < dx + dy := by linarith
  constructor
  · rw [le_div_iff₀ hsum]
    nlinarith [mul_le_mul_of_nonneg_right hx (le_of_lt hdx),
      mul_le_mul_of_nonneg_right hy (le_of_lt hdy)]
  · rw [div_le_iff₀ hsum]
    nlinarith [mul_le_mul_of_nonneg_right hx' (le_of_lt hdx),
      mul_le_mul_of_nonneg_right hy' (le_of_lt hdy)]

theorem mergedSeg_ok (lo hi : ℚ) (a b : TempoSegment)
    (ha : SegOk lo hi a) (hb : SegOk lo hi b) : SegOk lo hi (mergedSeg a b) := by
  obtain ⟨ha1, ha2, ha3⟩ := ha
  obtain ⟨hb1, hb2, hb3⟩ := hb
  have hda : 0 < a.endTime - a.start := by linarith
  have hdb : 0 < b.endTime - b.start := by linarith
  have hw := weighted_avg_mem lo hi a.bpm b.bpm _ _ ha2 ha3 hb2 hb3 hda hdb
  exact ⟨lt_of_lt_of_le ha1 (le_max_left _ _), hw.1, hw.2⟩

theorem mergeRun_ok (lo hi : ℚ) :
    ∀ (l : List TempoSegment) (last : TempoSegment), SegOk lo hi last →
      (∀ s ∈ l, SegOk lo hi s) → ∀ t ∈ mergeRun last l, SegOk lo hi t := by
  intro l
  induction l with
  | nil =>
    intro last hlast _ t ht
    rw [mergeRun, List.mem_singleton] at ht
    rw [ht]; exact hlast
  | cons seg rest ih =>
    intro last hlast hl t ht
    rw [mergeRun] at ht
    by_cases h : |seg.bpm - last.bpm| ≤ BPM_MERGE_TOLERANCE
    · rw [if_pos h] at ht
      exact ih (mergedSeg last seg) (mergedSeg_ok lo hi _ _ hlast (hl seg (by simp)))
        (fun s hs => hl s (by simp [hs])) t ht
    · rw [if_neg h] at ht
      rcases List.mem_cons.mp ht with rfl | ht'
      · exact hlast
      · exact ih seg (hl seg (by simp)) (fun s hs => hl s (by simp [hs])) t ht'

theorem mergeTempoSegments_ok (lo hi : ℚ) (l : List TempoSegment)
    (hl : ∀ s ∈ l, SegOk lo hi s) : ∀ t ∈ mergeTempoSegments l, SegOk lo hi t := by
  cases l with
  | nil => intro t ht; simp [mergeTempoSegments] at ht
  | cons seg rest =>
    exact mergeRun_ok lo hi rest seg (hl seg (by simp)) (fun s hs => hl s (by simp [hs]))

/-- The start ordering of the merge: strictly sorted input starts give a
strictly sorted output whose elements all start at or after the given
running segment. -/
theorem mergeRun_sorted :
    ∀ (l : List TempoSegment) (last : TempoSegment),
      (∀ s ∈ l, last.start < s.start) →
      l.Pairwise (fun x y => x.start < y.start) →
      (mergeRun last l).Pairwise (fun x y => x.start < y.start) ∧
        ∀ t ∈ mergeRun last l, last.start ≤ t.start := by
  intro l
  induction l with
  | nil =>
    intro last _ _
    constructor
    · rw [mergeRun]; exact List.pairwise_singleton _ _
    · intro t ht
      rw [mergeRun, List.mem_singleton] at ht
      rw [ht]
  | cons seg rest ih =>
    intro last hl hsort
    have hrest_sorted : rest.Pairwise (fun x y => x.start < y.start) :=
      (List.pairwise_cons.mp hsort).2
    have hseg_rest : ∀ s ∈ rest, seg.start < s.start := (List.pairwise_cons.mp hsort).1
    rw [mergeRun]
    by_cases h : |seg.bpm - last.bpm| ≤ BPM_MERGE_TOLERANCE
    · rw [if_pos h]
      have hmerged : ∀ s ∈ rest, (mergedSeg last seg).start < s.start := by
        intro s hs
        exact lt_trans (hl seg (by simp)) (hseg_rest s hs)
      have := ih (mergedSeg last seg) hmerged hrest_sorted
      exact ⟨this.1, this.2⟩
    · rw [if_neg h]
      have hih := ih seg hseg_rest hrest_sorted
      constructor
      · rw [List.pairwise_cons]
        refine ⟨fun t ht => lt_of_lt_of_le (hl seg (by simp)) (hih.2 t ht), hih.1⟩
      · intro t ht
        rcases List.mem_cons.mp ht with rfl | ht'
        · exact le_refl _
        · exact le_of_lt (lt_of_lt_of_le (hl seg (by simp)) (hih.2 t ht'))

theorem mergeTempoSegments_sorted (l : List TempoSegment)
    (hsort : l.Pairwise (fun x y => x.start < y.start)) :
    (mergeTempoSegments l).Pairwise (fun x y => x.start < y.start) := by
  cases l with
  | nil => exact List.Pairwise.nil
  | cons seg rest =>
    exact (mergeRun_sorted rest seg (List.pairwise_cons.mp hsort).1
      (List.pairwise_cons.mp hsort).2).1

/-! ### The provisional segments of buildTempoSegments -/

/-- The autocorrelation stage only reports octave-folded positive values, so
a successful estimate lies in [BPM_MIN, BPM_MAX] whenever the sample rate is
positive. -/
theorem tempoFromEnergies_mem (E : List ℚ) (rate q : ℚ) (hr : 0 < rate)
    (h : tempoFromEnergies E rate = some q) : BPM_MIN ≤ q ∧ q ≤ BPM_MAX := by
  simp only [tempoFromEnergies] at h
  split_ifs at h with h3
  rw [Option.some_inj] at h
  rw [← h]
  refine normalizeTempo_mem _ (div_pos (by linarith) (mul_pos ?_ (by norm_num)))
  exact_mod_cast Nat.pos_of_ne_zero h3

/-- A successful tempo estimate lies in [BPM_MIN, BPM_MAX] whenever the
sample rate is positive. -/
theorem estimateTempo_mem (b : SampleBuf) (rate q : ℚ) (hr : 0 < rate)
    (h : estimateTempo b rate = some q) : BPM_MIN ≤ q ∧ q ≤ BPM_MAX := by
  simp only [estimateTempo] at h
  split_ifs at h with h1 h2
  exact tempoFromEnergies_mem _ rate q hr h

/-- Everything windowSegment publishes about an emitted segment. -/
theorem windowSegment_some (samples : SampleBuf) (rate : ℚ) (w a : ℕ) (seg : TempoSegment)
    (h : windowSegment samples rate w a = some seg) :
    seg.start = (a : ℚ) / rate ∧ seg.endTime = ((a : ℚ) + (w : ℚ)) / rate ∧
      estimateTempo (samples.subarray a (a + w)) rate = some seg.bpm := by
  rw [windowSegment] at h
  cases hET : estimateTempo (samples.subarray a (a + w)) rate with
  | none => rw [hET] at h; exact absurd h (by simp)
  | some bpm =>
    rw [hET] at h
    dsimp only at h
    by_cases hz : bpm = 0
    · rw [if_pos hz] at h; exact absurd h (by simp)
    · rw [if_neg hz, Option.some_inj] at h
      subst h
      exact ⟨rfl, rfl, rfl⟩

/-- Pairwise relations survive filterMap when the emitted values inherit the
relation of their preimages. -/
theorem pairwise_filterMap' {α β : Type} (R : β → β → Prop) (S : α → α → Prop)
    (f : α → Option β) :
    ∀ l : List α, l.Pairwise S →
      (∀ a b x y, S a b → f a = some x → f b = some y → R x y) →
      (l.filterMap f).Pairwise R := by
  intro l
  induction l with
  | nil => intro _ _; simp
  | cons a l ih =>
    intro hsort hf
    have htail := ih (List.pairwise_cons.mp hsort).2 hf
    cases hfa : f a with
    | none => rw [List.filterMap_cons_none hfa]; exact htail
    | some x =>
      rw [List.filterMap_cons_some hfa, List.pairwise_cons]
      refine ⟨?_, htail⟩
      intro y hy
      obtain ⟨b, hb, hfb⟩ := List.mem_filterMap.mp hy
      exact hf a b x y ((List.pairwise_cons.mp hsort).1 b hb) hfa hfb

/-- Every provisional segment of buildTempoSegments has positive duration
and a bpm inside [BPM_MIN, BPM_MAX]. -/
theorem rawTempoSegments_ok (samples : SampleBuf) (rate : ℚ) (hr : 0 < rate) :
    ∀ s ∈ rawTempoSegments samples rate, SegOk BPM_MIN BPM_MAX s := by
  intro s hs
  simp only [rawTempoSegments] at hs
  split_ifs at hs with hguard
  · simp at hs
  · push_neg at hguard
    obtain ⟨hw, _, _⟩ := hguard
    obtain ⟨a, _, hfa⟩ := List.mem_filterMap.mp hs
    obtain ⟨h1, h2, h3⟩ := windowSegment_some samples rate _ a s hfa
    have hbpm := estimateTempo_mem _ rate s.bpm hr h3
    have hwpos : (0 : ℚ) < ((ratFloor (rate * BPM_WINDOW_SECONDS)).toNat : ℚ) := by
      have : (1 : ℤ) ≤ ratFloor (rate * BPM_WINDOW_SECONDS) := by omega
      have h1' : (1 : ℕ) ≤ (ratFloor (rate * BPM_WINDOW_SECONDS)).toNat := by omega
      exact_mod_cast lt_of_lt_of_le zero_lt_one h1'
    refine ⟨?_, hbpm.1, hbpm.2⟩
    rw [h1, h2]
    apply div_lt_div_of_pos_right ?_ hr
    linarith

/-- The provisional segments of buildTempoSegments come in strictly
increasing start order. -/
theorem rawTempoSegments_sorted (samples : SampleBuf) (rate : ℚ) (hr : 0 < rate) :
    (rawTempoSegments samples rate).Pairwise (fun x y => x.start < y.start) := by
  simp only [rawTempoSegments]
  split_ifs with hguard
  · simp
  · push_neg at hguard
    obtain ⟨_, hh, _⟩ := hguard
    have hhop : 1 ≤ (ratFloor (rate * BPM_HOP_SECONDS)).toNat := by omega
    refine pairwise_filterMap' _ (fun x y : ℕ => x < y) _ _ ?_ ?_
    · rw [windowStartList, List.pairwise_map]
      refine (List.pairwise_lt_range _).imp ?_
      intro x y hxy
      exact mul_lt_mul_of_pos_right hxy (by omega)
    · intro a b x y hab hfa hfb
      rw [(windowSegment_some samples rate _ a x hfa).1,
        (windowSegment_some samples rate _ b y hfb).1]
      apply div_lt_div_of_pos_right ?_ hr
      exact_mod_cast hab

/-- Claim C1, amended: every segment produced by buildTempoSegments has
start strictly below end, and the segments are strictly ordered by start.
The original claim's further conjuncts fail: adjacent windows overlap by
window minus hop (15 s), so two unmergeable neighbours yield overlapping
segments (C1_counterexample), and later merges can pull a segment's
weighted bpm back to within the tolerance of its predecessor. -/
theorem C1_segment_invariant (samples : SampleBuf) (rate : ℚ) (hr : 0 < rate) :
    (∀ s ∈ buildTempoSegments samples rate, s.start < s.endTime) ∧
      (buildTempoSegments samples rate).Pairwise (fun x y => x.start < y.start) := by
  constructor
  · intro s hs
    exact (mergeTempoSegments_ok BPM_MIN BPM_MAX _
      (rawTempoSegments_ok samples rate hr) s hs).1
  · exact mergeTempoSegments_sorted _ (rawTempoSegments_sorted samples rate hr)

theorem C1_segment_invariant_witness :
    (0 : ℚ) < 22050 ∧
      ((∀ s ∈ buildTempoSegments (onesBuf 0 (fun _ => false)) 22050,
          s.start < s.endTime) ∧
        (buildTempoSegments (onesBuf 0 (fun _ => false)) 22050).Pairwise
          (fun x y => x.start < y.start)) :=
  ⟨by norm_num, C1_segment_invariant (onesBuf 0 (fun _ => false)) 22050 (by norm_num)⟩

/-! ### Claim C1, counterexample

Adjacent analysis windows overlap by half a window (30 s window, 15 s hop).
The buffer below makes window [0, 30] lock on lag 1 (120 BPM) and window
[15, 45] on lag 2 (60 BPM) at a 1024 Hz sample rate; the two provisional
segments differ by far more than the tolerance, survive the merge untouched,
and overlap on [15, 30]. -/

/-- Ones count of block b of the C1 counterexample buffer: a period-4 energy
staircase in blocks 2 to 29 (onset period 1 frame for window one), a flat
plateau in the shared blocks 30 to 61, and a period-2 staircase in blocks 62
to 89 (onset period 2 frames for window two). -/
def cexC1w (b : ℕ) : ℕ :=
  cond (b.blt 2) 0
    (cond (b.blt 30) (cond ((b % 2).beq 0) ((b + 3) / 4) ((b + 2) / 4))
      (cond (b.blt 62) 7 (cond ((b % 2).beq 0) (7 + (b - 60) / 2) 7)))

/-- Sample predicate of the C1 counterexample buffer. -/
def cexC1p (i : ℕ) : Bool := (i % 512).blt (cexC1w (i / 512))

/-- The C1 counterexample buffer: 46080 samples, two 30720-sample windows at
a 1024 Hz sample rate. -/
def cexC1buf : SampleBuf := onesBuf 46080 cexC1p

/-- Frame energies of the first window [0, 30720). -/
def cexC1energies1 : List ℚ :=
  [0, 1, 2, 2, 2, 3, 4, 4, 4, 5, 6, 6, 6, 7, 8, 8, 8, 9, 10, 10, 10, 11, 12, 12, 12, 13] ++
    List.replicate 33 14

/-- Frame energies of the second window [15360, 46080). -/
def cexC1energies2 : List ℚ :=
  List.replicate 31 14 ++
    [15, 15, 16, 16, 17, 17, 18, 18, 19, 19, 20, 20, 21, 21, 22, 22, 23, 23, 24, 24,
      25, 25, 26, 26, 27, 27, 28, 28]

theorem cexC1_E1 :
    frameEnergies (onesBuf ((0 + 30720) - 0) (fun i => cexC1p (0 + i))) 59 1024 512 =
      cexC1energies1 := by
  rw [frameEnergies_onesBuf]
  decide

theorem cexC1_E2 :
    frameEnergies (onesBuf ((15360 + 30720) - 15360) (fun i => cexC1p (15360 + i)))
      59 1024 512 = cexC1energies2 := by
  rw [frameEnergies_onesBuf]
  decide

theorem cexC1_w1 : estimateTempo (cexC1buf.subarray 0 (0 + 30720)) 1024 = some 120 := by
  rw [cexC1buf, onesBuf_subarray,
    estimateTempo_eval _ 1024 59 (by decide) (by decide) (by decide), cexC1_E1]
  decide

theorem cexC1_w2 :
    estimateTempo (cexC1buf.subarray 15360 (15360 + 30720)) 1024 = some 60 := by
  rw [cexC1buf, onesBuf_subarray,
    estimateTempo_eval _ 1024 59 (by decide) (by decide) (by decide), cexC1_E2]
  decide

theorem cexC1_ws1 : windowSegment cexC1buf 1024 30720 0 = some ⟨0, 30, 120⟩ := by
  rw [windowSegment, cexC1_w1]
  dsimp only
  rw [if_neg (by norm_num)]
  decide

theorem cexC1_ws2 : windowSegment cexC1buf 1024 30720 15360 = some ⟨15, 45, 60⟩ := by
  rw [windowSegment, cexC1_w2]
  dsimp only
  rw [if_neg (by norm_num)]
  decide

theorem cexC1_raw : rawTempoSegments cexC1buf 1024 = [⟨0, 30, 120⟩, ⟨15, 45, 60⟩] := by
  simp only [rawTempoSegments]
  rw [if_neg (by decide),
    show (ratFloor ((1024 : ℚ) * BPM_WINDOW_SECONDS)).toNat = 30720 from by decide,
    show (ratFloor ((1024 : ℚ) * BPM_HOP_SECONDS)).toNat = 15360 from by decide,
    show windowStartList cexC1buf.len 30720 15360 = [0, 15360] from by decide,
    List.filterMap_cons_some cexC1_ws1, List.filterMap_cons_some cexC1_ws2,
    List.filterMap_nil]

theorem cexC1_segments :
    buildTempoSegments cexC1buf 1024 = [⟨0, 30, 120⟩, ⟨15, 45, 60⟩] := by
  rw [buildTempoSegments, cexC1_raw]
  decide

/-! ### The client beat-tracking strategy

Embedding of buildTempoMap from
src/client/src/workers/audioAnalysis.worker.ts.  JavaScript truthiness
tests (!smoothed, lastStable && ...) are the zero/null tests; the division
by a zero total duration that yields NaN in JavaScript yields 0 in the
rational idealization - either value violates the worker's BPM bounds. -/

namespace Worker

/-- Constant BPM_MIN of the worker. -/
def BPM_MIN : ℚ := 40

/-- Constant BPM_MAX of the worker. -/
def BPM_MAX : ℚ := 208

/-- Constant MOVING_AVG_WINDOW of the worker. -/
def MOVING_AVG_WINDOW : ℕ := 4

/-- Constant GLITCH_RATIO of the worker. -/
def GLITCH_RATIO : ℚ := 3 / 10

/-- Constant SEGMENT_TOLERANCE of the worker. -/
def SEGMENT_TOLERANCE : ℚ := 2

/-- average from the worker: null on an empty list, else the mean. -/
def average (values : List ℚ) : Option ℚ :=
  if values.length = 0 then none else some (values.sum / (values.length : ℚ))

/-- One iteration of the beat-interval loop of buildTempoMap, acting on the
state (history, lastStable, intervals) for one pair of consecutive beats. -/
def tempoMapStep (state : List ℚ × Option ℚ × List TempoSegment) (pair : ℚ × ℚ) :
    List ℚ × Option ℚ × List TempoSegment :=
  let interval := pair.2 - pair.1
  if interval ≤ 0 then state else
  let rawBpm := 60 / interval
  if rawBpm < BPM_MIN ∨ BPM_MAX < rawBpm then state else
  let grown := state.1 ++ [rawBpm]
  let nextHistory := grown.drop (grown.length - MOVING_AVG_WINDOW)
  match average nextHistory with
  | none => state
  | some smoothed =>
    if smoothed = 0 then state else
    match state.2.1 with
    | some ls =>
      if ls ≠ 0 ∧ GLITCH_RATIO < |smoothed - ls| / ls then state
      else (nextHistory, some smoothed, state.2.2 ++ [⟨pair.1, pair.2, smoothed⟩])
    | none => (nextHistory, some smoothed, state.2.2 ++ [⟨pair.1, pair.2, smoothed⟩])

/-- The accepted raw intervals of buildTempoMap (the intervals array before
the merge pass); the loop over i from 1 pairs each beat with its
predecessor. -/
def tempoIntervals (beats : List ℚ) : List TempoSegment :=
  ((beats.zip beats.tail).foldl tempoMapStep ([], none, [])).2.2

/-- The worker's merged record: keep the left start, set the end to the new
interval's end (not a max, unlike the server), duration-weighted bpm. -/
def mergedSegW (last seg : TempoSegment) : TempoSegment :=
  { start := last.start
    endTime := seg.endTime
    bpm := (last.bpm * (last.endTime - last.start) + seg.bpm * (seg.endTime - seg.start)) /
      ((last.endTime - last.start) + (seg.endTime - seg.start)) }

/-- The body of the worker's merge pass. -/
def mergeRunW (last : TempoSegment) : List TempoSegment → List TempoSegment
  | [] => [last]
  | seg :: rest =>
    if |seg.bpm - last.bpm| ≤ SEGMENT_TOLERANCE then mergeRunW (mergedSegW last seg) rest
    else last :: mergeRunW seg rest

/-- The worker's merge pass over the raw intervals. -/
def mergeSegmentsW : List TempoSegment → List TempoSegment
  | [] => []
  | seg :: rest => mergeRunW seg rest

/-- The final-segment extension of buildTempoMap: stretch the last merged
segment to the track duration when it falls short. -/
def extendLast (merged : List TempoSegment) (duration : ℚ) : List TempoSegment :=
  match merged.getLast? with
  | none => merged
  | some last =>
    if duration > last.endTime then merged.dropLast ++ [⟨last.start, duration, last.bpm⟩]
    else merged

/-- The result record of buildTempoMap. -/
structure TempoMap where
  segments : List TempoSegment
  bpm : Option ℚ
deriving DecidableEq, Repr

/-- buildTempoMap from the worker: accepted intervals, merge, final-segment
extension, overall bpm as the median of the segment bpm values. -/
def buildTempoMap (beats : List ℚ) (duration : ℚ) : TempoMap :=
  let extended := extendLast (mergeSegmentsW (tempoIntervals beats)) duration
  ⟨extended, median (extended.map (fun s => s.bpm))⟩

end Worker

/-- The data-model invariant exactly as claim C1 states it: positive
duration, pairwise non-overlap in start order, and consecutive bpm values
separated by more than the merge tolerance. -/
def ClaimedSegmentInvariant (l : List TempoSegment) : Prop :=
  (∀ s ∈ l, s.start < s.endTime) ∧
    l.Pairwise (fun x y => x.endTime ≤ y.start) ∧
    l.Chain' (fun x y => BPM_MERGE_TOLERANCE < |y.bpm - x.bpm|)

instance (l : List TempoSegment) : Decidable (ClaimedSegmentInvariant l) := by
  unfold ClaimedSegmentInvariant
  infer_instance

/-- Claim C1, counterexample: on the buffer above the tempo estimator emits
segments [0, 30] at 120 BPM and [15, 45] at 60 BPM, which overlap on
[15, 30], so the claimed non-overlap invariant fails. -/
theorem C1_counterexample :
    buildTempoSegments cexC1buf 1024 = [⟨0, 30, 120⟩, ⟨15, 45, 60⟩] ∧
      ¬ ClaimedSegmentInvariant (buildTempoSegments cexC1buf 1024) :=
  ⟨cexC1_segments, by rw [cexC1_segments]; decide⟩

/-! ### Claim C10: BPM bounds of both strategies -/

/-- The mean of a nonempty list of values inside [lo, hi] is inside
[lo, hi]. -/
theorem average_mem (lo hi : ℚ) (l : List ℚ) (hl : ∀ x ∈ l, lo ≤ x ∧ x ≤ hi)
    (s : ℚ) (h : Worker.average l = some s) : lo ≤ s ∧ s ≤ hi := by
  rw [Worker.average] at h
  split_ifs at h with hlen
  rw [Option.some_inj] at h
  have hpos : (0 : ℚ) < (l.length : ℚ) := by
    have : 0 < l.length := Nat.pos_of_ne_zero hlen
    exact_mod_cast this
  have hupper : l.sum ≤ l.length • hi := List.sum_le_card_nsmul l hi fun x hx => (hl x hx).2
  have hlower : l.length • lo ≤ l.sum := List.card_nsmul_le_sum l lo fun x hx => (hl x hx).1
  rw [nsmul_eq_mul] at hupper hlower
  rw [← h]
  constructor
  · rw [le_div_iff₀ hpos]; linarith
  · rw [div_le_iff₀ hpos]; linarith

/-- Case analysis of one worker loop iteration: either the state is
unchanged, or the pair is accepted with a smoothed bpm that is the average
of the updated history. -/
theorem tempoMapStep_cases (st : List ℚ × Option ℚ × List TempoSegment) (pair : ℚ × ℚ) :
    Worker.tempoMapStep st pair = st ∨
      ∃ smoothed,
        Worker.average ((st.1 ++ [60 / (pair.2 - pair.1)]).drop
          ((st.1 ++ [60 / (pair.2 - pair.1)]).length - Worker.MOVING_AVG_WINDOW)) =
            some smoothed ∧
        0 < pair.2 - pair.1 ∧
        ¬ (60 / (pair.2 - pair.1) < Worker.BPM_MIN ∨
            Worker.BPM_MAX < 60 / (pair.2 - pair.1)) ∧
        Worker.tempoMapStep st pair =
          ((st.1 ++ [60 / (pair.2 - pair.1)]).drop
            ((st.1 ++ [60 / (pair.2 - pair.1)]).length - Worker.MOVING_AVG_WINDOW),
           some smoothed, st.2.2 ++ [⟨pair.1, pair.2, smoothed⟩]) := by
  simp only [Worker.tempoMapStep]
  split_ifs with h1 h2
  · left; rfl
  · left; rfl
  · split
    · left; rfl
    · rename_i smoothed heq
      split_ifs with hz
      · left; rfl
      · split
        · rename_i ls _
          split_ifs with hg
          · left; rfl
          · right; exact ⟨smoothed, heq, by linarith [not_le.mp (by simpa using h1)], h2, rfl⟩
        · right; exact ⟨smoothed, heq, by linarith [not_le.mp (by simpa using h1)], h2, rfl⟩

/-- The loop-state invariant of the worker: history entries and accepted
intervals all inside the worker's BPM bounds, accepted intervals with
positive duration. -/
def WStateOk (st : List ℚ × Option ℚ × List TempoSegment) : Prop :=
  (∀ x ∈ st.1, Worker.BPM_MIN ≤ x ∧ x ≤ Worker.BPM_MAX) ∧
    ∀ t ∈ st.2.2, SegOk Worker.BPM_MIN Worker.BPM_MAX t

theorem tempoMapStep_ok (st : List ℚ × Option ℚ × List TempoSegment) (pair : ℚ × ℚ)
    (h : WStateOk st) : WStateOk (Worker.tempoMapStep st pair) := by
  rcases tempoMapStep_cases st pair with heq | ⟨s, havg, hpos, hbpm, heq⟩
  · rw [heq]; exact h
  · rw [heq]
    push_neg at hbpm
    have hraw : Worker.BPM_MIN ≤ 60 / (pair.2 - pair.1) ∧
        60 / (pair.2 - pair.1) ≤ Worker.BPM_MAX :=
      ⟨hbpm.1, hbpm.2⟩
    have hhist : ∀ x ∈ (st.1 ++ [60 / (pair.2 - pair.1)]).drop
        ((st.1 ++ [60 / (pair.2 - pair.1)]).length - Worker.MOVING_AVG_WINDOW),
        Worker.BPM_MIN ≤ x ∧ x ≤ Worker.BPM_MAX := by
      intro x hx
      rcases List.mem_append.mp (List.mem_of_mem_drop hx) with h' | h'
      · exact h.1 x h'
      · rw [List.mem_singleton.mp h']; exact hraw
    have hs := average_mem _ _ _ hhist s havg
    refine ⟨hhist, ?_⟩
    intro t ht
    rcases List.mem_append.mp ht with h' | h'
    · exact h.2 t h'
    · rw [List.mem_singleton.mp h']
      exact ⟨by dsimp only; linarith, hs.1, hs.2⟩

theorem foldl_tempoMapStep_ok (pairs : List (ℚ × ℚ)) :
    ∀ st, WStateOk st → WStateOk (pairs.foldl Worker.tempoMapStep st) := by
  induction pairs with
  | nil => intro st h; exact h
  | cons p ps ih => intro st h; exact ih _ (tempoMapStep_ok st p h)

/-- Every accepted raw interval of the worker has positive duration and a
bpm inside [40, 208], for arbitrary (even unsorted) beat lists. -/
theorem tempoIntervals_ok (beats : List ℚ) :
    ∀ t ∈ Worker.tempoIntervals beats, SegOk Worker.BPM_MIN Worker.BPM_MAX t :=
  (foldl_tempoMapStep_ok (beats.zip beats.tail) ([], none, [])
    ⟨by simp, by simp⟩).2

theorem foldl_tempoMapStep_chain :
    ∀ (pairs : List (ℚ × ℚ)) (st : List ℚ × Option ℚ × List TempoSegment),
      pairs.Pairwise (fun p q => p.2 ≤ q.1) →
      (∀ t ∈ st.2.2, ∀ p ∈ pairs, t.endTime ≤ p.1) →
      List.Chain' (fun x y => x.endTime ≤ y.start) st.2.2 →
      List.Chain' (fun x y => x.endTime ≤ y.start)
        (pairs.foldl Worker.tempoMapStep st).2.2 := by
  intro pairs
  induction pairs with
  | nil => intro st _ _ hchain; exact hchain
  | cons p ps ih =>
    intro st hpw hinv hchain
    have hpw_tail := (List.pairwise_cons.mp hpw).2
    have hpw_head := (List.pairwise_cons.mp hpw).1
    rcases tempoMapStep_cases st p with heq | ⟨s, _, _, _, heq⟩
    · rw [List.foldl_cons, heq]
      exact ih st hpw_tail (fun t ht q hq => hinv t ht q (by simp [hq])) hchain
    · rw [List.foldl_cons, heq]
      refine ih _ hpw_tail ?_ ?_
      · intro t ht q hq
        rcases List.mem_append.mp ht with h' | h'
        · exact hinv t h' q (by simp [hq])
        · rw [List.mem_singleton.mp h']
          exact hpw_head q hq
      · rw [List.chain'_append]
        refine ⟨hchain, List.chain'_singleton _, ?_⟩
        intro x hx y hy
        rw [List.head?_cons, Option.mem_some_iff] at hy
        rw [← hy]
        exact hinv x (List.mem_of_getLast?_eq_some hx) p (by simp)

/-- Beat pairs built from a nondecreasing beat list: any earlier pair ends
at or before any later pair starts. -/
theorem zip_tail_pairwise :
    ∀ l : List ℚ, l.Pairwise (· ≤ ·) →
      (l.zip l.tail).Pairwise (fun p q : ℚ × ℚ => p.2 ≤ q.1) := by
  intro l
  induction l with
  | nil => intro _; simp
  | cons b rest ih =>
    intro h
    cases rest with
    | nil => simp
    | cons c t =>
      rw [List.tail_cons, List.zip_cons_cons, List.pairwise_cons]
      have htail := (List.pairwise_cons.mp h).2
      refine ⟨?_, ih htail⟩
      intro q hq
      have hq1 := (List.of_mem_zip hq).1
      rcases List.mem_cons.mp hq1 with h' | h'
      · rw [h']
      · exact (List.pairwise_cons.mp htail).1 q.1 h'

/-- The accepted intervals of a nondecreasing beat list are chained: each
ends at or before the next starts. -/
theorem tempoIntervals_chain (beats : List ℚ) (hsorted : beats.Pairwise (· ≤ ·)) :
    List.Chain' (fun x y => x.endTime ≤ y.start) (Worker.tempoIntervals beats) :=
  foldl_tempoMapStep_chain (beats.zip beats.tail) ([], none, [])
    (zip_tail_pairwise beats hsorted) (by simp) (by simp)

theorem mergedSegW_ok (lo hi : ℚ) (a b : TempoSegment)
    (ha : SegOk lo hi a) (hb : SegOk lo hi b) (hR : a.endTime ≤ b.start) :
    SegOk lo hi (Worker.mergedSegW a b) := by
  obtain ⟨ha1, ha2, ha3⟩ := ha
  obtain ⟨hb1, hb2, hb3⟩ := hb
  have hda : 0 < a.endTime - a.start := by linarith
  have hdb : 0 < b.endTime - b.start := by linarith
  have hw := weighted_avg_mem lo hi a.bpm b.bpm _ _ ha2 ha3 hb2 hb3 hda hdb
  exact ⟨by dsimp only [Worker.mergedSegW]; linarith, hw.1, hw.2⟩

theorem mergeRunW_ok (lo hi : ℚ) :
    ∀ (l : List TempoSegment) (last : TempoSegment),
      SegOk lo hi last → (∀ s ∈ l, SegOk lo hi s) →
      List.Chain' (fun x y => x.endTime ≤ y.start) (last :: l) →
      ∀ t ∈ Worker.mergeRunW last l, SegOk lo hi t := by
  intro l
  induction l with
  | nil =>
    intro last hlast _ _ t ht
    rw [Worker.mergeRunW, List.mem_singleton] at ht
    rw [ht]; exact hlast
  | cons seg rest ih =>
    intro last hlast hl hchain t ht
    have hR : last.endTime ≤ seg.start := by
      have := (List.chain'_cons'.mp hchain).1
      exact this seg (by rw [List.head?_cons]; rfl)
    have hchain_tail : List.Chain' (fun x y => x.endTime ≤ y.start) (seg :: rest) :=
      (List.chain'_cons'.mp hchain).2
    rw [Worker.mergeRunW] at ht
    by_cases h : |seg.bpm - last.bpm| ≤ Worker.SEGMENT_TOLERANCE
    · rw [if_pos h] at ht
      have hmerged := mergedSegW_ok lo hi last seg hlast (hl seg (by simp)) hR
      have hmchain : List.Chain' (fun x y => x.endTime ≤ y.start)
          (Worker.mergedSegW last seg :: rest) := by
        rw [List.chain'_cons']
        refine ⟨?_, (List.chain'_cons'.mp hchain_tail).2⟩
        intro y hy
        have := (List.chain'_cons'.mp hchain_tail).1 y hy
        exact this
      exact ih (Worker.mergedSegW last seg) hmerged
        (fun s hs => hl s (by simp [hs])) hmchain t ht
    · rw [if_neg h] at ht
      rcases List.mem_cons.mp ht with rfl | ht'
      · exact hlast
      · exact ih seg (hl seg (by simp)) (fun s hs => hl s (by simp [hs])) hchain_tail t ht'

theorem mergeSegmentsW_ok (lo hi : ℚ) (l : List TempoSegment)
    (hl : ∀ s ∈ l, SegOk lo hi s)
    (hchain : List.Chain' (fun x y => x.endTime ≤ y.start) l) :
    ∀ t ∈ Worker.mergeSegmentsW l, SegOk lo hi t := by
  cases l with
  | nil => intro t ht; simp [Worker.mergeSegmentsW] at ht
  | cons seg rest =>
    exact mergeRunW_ok lo hi rest seg (hl seg (by simp))
      (fun s hs => hl s (by simp [hs])) hchain

theorem extendLast_bpm (lo hi : ℚ) (merged : List TempoSegment) (duration : ℚ)
    (h : ∀ s ∈ merged, lo ≤ s.bpm ∧ s.bpm ≤ hi) :
    ∀ s ∈ Worker.extendLast merged duration, lo ≤ s.bpm ∧ s.bpm ≤ hi := by
  rw [Worker.extendLast]
  split
  · exact h
  · rename_i last hlast
    split_ifs with hd
    · intro s hs
      rcases List.mem_append.mp hs with h' | h'
      · exact h s (List.dropLast_subset merged h')
      · rw [List.mem_singleton.mp h']
        exact h last (List.mem_of_getLast?_eq_some hlast)
    · exact h

/-- Claim C10, amended: the server strategy's provisional and merged
segments always carry bpm values in [60, 200] (for any positive sample
rate); the client strategy's accepted raw intervals always carry bpm values
in [40, 208], and so do its merged (and duration-extended) segments when
the beat timestamps are nondecreasing, which real beat trackers produce.
For unsorted beat timestamps the client merge can produce a zero total
duration and a bpm outside every bound (C10_counterexample). -/
theorem C10_bpm_bounds :
    (∀ (samples : SampleBuf) (rate : ℚ), 0 < rate →
      (∀ s ∈ rawTempoSegments samples rate, BPM_MIN ≤ s.bpm ∧ s.bpm ≤ BPM_MAX) ∧
        (∀ s ∈ buildTempoSegments samples rate, BPM_MIN ≤ s.bpm ∧ s.bpm ≤ BPM_MAX)) ∧
      (∀ beats : List ℚ,
        (∀ s ∈ Worker.tempoIntervals beats,
          Worker.BPM_MIN ≤ s.bpm ∧ s.bpm ≤ Worker.BPM_MAX) ∧
          (beats.Pairwise (· ≤ ·) → ∀ duration : ℚ,
            ∀ s ∈ (Worker.buildTempoMap beats duration).segments,
              Worker.BPM_MIN ≤ s.bpm ∧ s.bpm ≤ Worker.BPM_MAX)) := by
  constructor
  · intro samples rate hr
    constructor
    · intro s hs
      have := rawTempoSegments_ok samples rate hr s hs
      exact ⟨this.2.1, this.2.2⟩
    · intro s hs
      have := mergeTempoSegments_ok BPM_MIN BPM_MAX _
        (rawTempoSegments_ok samples rate hr) s hs
      exact ⟨this.2.1, this.2.2⟩
  · intro beats
    constructor
    · intro s hs
      have := tempoIntervals_ok beats s hs
      exact ⟨this.2.1, this.2.2⟩
    · intro hsorted duration s hs
      have hmerged := mergeSegmentsW_ok Worker.BPM_MIN Worker.BPM_MAX _
        (tempoIntervals_ok beats) (tempoIntervals_chain beats hsorted)
      exact extendLast_bpm Worker.BPM_MIN Worker.BPM_MAX _ duration
        (fun t ht => ⟨(hmerged t ht).2.1, (hmerged t ht).2.2⟩) s hs

theorem C10_bpm_bounds_witness :
    ((0 : ℚ) < 22050 ∧
        ((∀ s ∈ rawTempoSegments (onesBuf 0 (fun _ => false)) 22050,
            BPM_MIN ≤ s.bpm ∧ s.bpm ≤ BPM_MAX) ∧
          ∀ s ∈ buildTempoSegments (onesBuf 0 (fun _ => false)) 22050,
            BPM_MIN ≤ s.bpm ∧ s.bpm ≤ BPM_MAX)) ∧
      (([0, 1, 2] : List ℚ).Pairwise (· ≤ ·) ∧
        ∀ s ∈ (Worker.buildTempoMap [0, 1, 2] 3).segments,
          Worker.BPM_MIN ≤ s.bpm ∧ s.bpm ≤ Worker.BPM_MAX) :=
  ⟨⟨by norm_num, (C10_bpm_bounds.1 (onesBuf 0 (fun _ => false)) 22050 (by norm_num))⟩,
    ⟨by decide, (C10_bpm_bounds.2 [0, 1, 2]).2 (by decide) 3⟩⟩

/-- Claim C10, counterexample: on the unsorted beat list
[5, 6.5, 2, 3.5, 0, 1.5] every raw interval is accepted at 40 BPM, the
merge's second step makes the running segment end (1.5) precede its start
(5), and the third step then divides by a zero total duration - NaN in the
source, 0 in the rational model, in either case outside [40, 208]. -/
theorem C10_counterexample :
    (Worker.buildTempoMap [5, 13 / 2, 2, 7 / 2, 0, 3 / 2] 7).segments = [⟨5, 7, 0⟩] ∧
      ¬ (∀ s ∈ (Worker.buildTempoMap [5, 13 / 2, 2, 7 / 2, 0, 3 / 2] 7).segments,
          Worker.BPM_MIN ≤ s.bpm ∧ s.bpm ≤ Worker.BPM_MAX) :=
  ⟨by decide, by decide⟩

/-! ### The orchestrator getSongAnalysis (claims C3 and C4)

The effectful steps of getSongAnalysis are modelled by an explicit
environment: the outcome of fs.stat, the parsed cache file (none for a
missing, unreadable or malformed entry, i.e. whenever the try/catch in
readCache fires or the analysis field is absent), the ffmpeg decode result,
and the current clock reading used for createdAt.  The returned record
carries the result, the cache state after the call, and whether the
decode-and-estimate path ran.  All model functions are total: no code path
raises. -/

/-- The (mtimeMs, size) pair taken from fs.stat. -/
structure StatInfo where
  mtimeMs : ℚ
  size : ℚ
deriving DecidableEq, Repr

/-- The AnalysisCache record persisted by writeCache. -/
structure AnalysisCache where
  audioMtimeMs : ℚ
  audioSize : ℚ
  analysis : SongAnalysis
  createdAt : String
deriving DecidableEq, Repr

/-- readCache from audioAnalysis.ts: none models an unreadable or malformed
cache file (the catch branch, or a falsy analysis field); a parsed entry is
returned only when its stored stat pair matches the current one. -/
def readCache (entry : Option AnalysisCache) (stat : StatInfo) : Option SongAnalysis :=
  match entry with
  | none => none
  | some c =>
    if c.audioMtimeMs = stat.mtimeMs ∧ c.audioSize = stat.size then some c.analysis
    else none

/-- The environment of one getSongAnalysis call. -/
structure FsEnv where
  statResult : Option StatInfo
  cacheEntry : Option AnalysisCache
  decoded : Option SampleBuf
  now : String

/-- The outcome of one getSongAnalysis call: returned value, cache state
after the call, and whether the analysis was recomputed. -/
structure OrchestratorOutcome where
  result : Option SongAnalysis
  cacheAfter : Option AnalysisCache
  recomputed : Bool

/-- The decode-and-recompute path of getSongAnalysis: decode failure or an
empty buffer returns null without touching the cache; otherwise the
analysis is assembled and written through. -/
def computePath (keyFn : SampleBuf → ℚ → Option KeyEstimate) (env : FsEnv)
    (stat : StatInfo) : OrchestratorOutcome :=
  match env.decoded with
  | none => ⟨none, env.cacheEntry, false⟩
  | some decoded =>
    if decoded.len = 0 then ⟨none, env.cacheEntry, false⟩
    else
      let analysis := mkSongAnalysis keyFn decoded
      ⟨some analysis, some ⟨stat.mtimeMs, stat.size, analysis, env.now⟩, true⟩

/-- getSongAnalysis from audioAnalysis.ts over the explicit environment. -/
def getSongAnalysis (keyFn : SampleBuf → ℚ → Option KeyEstimate) (env : FsEnv)
    (force : Bool) : OrchestratorOutcome :=
  match env.statResult with
  | none => ⟨none, env.cacheEntry, false⟩
  | some stat =>
    match force with
    | true => computePath keyFn env stat
    | false =>
      match readCache env.cacheEntry stat with
      | some cached => ⟨some cached, env.cacheEntry, false⟩
      | none => computePath keyFn env stat

/-- Claim C3: on a non-forced call whose stat succeeds, a stored entry with
matching (mtimeMs, size) is returned as-is with no recomputation and no
cache change; a mismatched entry reads as a miss; and on any miss the call
proceeds exactly into the recompute path, which does recompute whenever a
nonempty decode is available.  All paths are total (the cache read never
raises). -/
theorem C3_cache_read (keyFn : SampleBuf → ℚ → Option KeyEstimate) (env : FsEnv)
    (stat : StatInfo) (hstat : env.statResult = some stat) :
    (∀ e, env.cacheEntry = some e → e.audioMtimeMs = stat.mtimeMs →
      e.audioSize = stat.size →
      getSongAnalysis keyFn env false = ⟨some e.analysis, env.cacheEntry, false⟩) ∧
      (∀ e, env.cacheEntry = some e →
        ¬ (e.audioMtimeMs = stat.mtimeMs ∧ e.audioSize = stat.size) →
        readCache env.cacheEntry stat = none) ∧
      (readCache env.cacheEntry stat = none →
        getSongAnalysis keyFn env false = computePath keyFn env stat ∧
          ∀ d, env.decoded = some d → d.len ≠ 0 →
            (getSongAnalysis keyFn env false).recomputed = true) := by
  refine ⟨?_, ?_, ?_⟩
  · intro e he hm hs
    have hrc : readCache env.cacheEntry stat = some e.analysis := by
      rw [he]; exact if_pos ⟨hm, hs⟩
    simp only [getSongAnalysis, hstat, hrc]
  · intro e he hne
    rw [he]; exact if_neg hne
  · intro hmiss
    have hrun : getSongAnalysis keyFn env false = computePath keyFn env stat := by
      simp only [getSongAnalysis, hstat, hmiss]
    refine ⟨hrun, fun d hd hlen => ?_⟩
    rw [hrun]
    simp [computePath, hd, hlen]

theorem C3_cache_read_witness :
    (∀ e, (some ⟨3, 7, SongAnalysis.mk none [] none none, "t0"⟩ : Option AnalysisCache) =
        some e → e.audioMtimeMs = (3 : ℚ) → e.audioSize = (7 : ℚ) →
        getSongAnalysis (fun _ _ => none)
          ⟨some ⟨3, 7⟩, some ⟨3, 7, SongAnalysis.mk none [] none none, "t0"⟩, none, "t1"⟩
          false =
          ⟨some e.analysis,
            some ⟨3, 7, SongAnalysis.mk none [] none none, "t0"⟩, false⟩) ∧
      (∀ e, (some ⟨3, 7, SongAnalysis.mk none [] none none, "t0"⟩ : Option AnalysisCache) =
          some e → ¬ (e.audioMtimeMs = (3 : ℚ) ∧ e.audioSize = (7 : ℚ)) →
          readCache (some ⟨3, 7, SongAnalysis.mk none [] none none, "t0"⟩) ⟨3, 7⟩ = none) ∧
      (readCache (some ⟨3, 7, SongAnalysis.mk none [] none none, "t0"⟩) ⟨3, 7⟩ = none →
        getSongAnalysis (fun _ _ => none)
          ⟨some ⟨3, 7⟩, some ⟨3, 7, SongAnalysis.mk none [] none none, "t0"⟩, none, "t1"⟩
          false =
          computePath (fun _ _ => none)
            ⟨some ⟨3, 7⟩, some ⟨3, 7, SongAnalysis.mk none [] none none, "t0"⟩, none, "t1"⟩
            ⟨3, 7⟩ ∧
          ∀ d, (none : Option SampleBuf) = some d → d.len ≠ 0 →
            (getSongAnalysis (fun _ _ => none)
              ⟨some ⟨3, 7⟩, some ⟨3, 7, SongAnalysis.mk none [] none none, "t0"⟩, none, "t1"⟩
              false).recomputed = true) :=
  C3_cache_read (fun _ _ => none)
    ⟨some ⟨3, 7⟩, some ⟨3, 7, SongAnalysis.mk none [] none none, "t0"⟩, none, "t1"⟩
    ⟨3, 7⟩ rfl

/-- Claim C4: when stat fails the call returns null immediately and the
cache state is unchanged (and nothing is recomputed). -/
theorem C4_stat_failure (keyFn : SampleBuf → ℚ → Option KeyEstimate) (env : FsEnv)
    (force : Bool) (h : env.statResult = none) :
    getSongAnalysis keyFn env force = ⟨none, env.cacheEntry, false⟩ := by
  simp only [getSongAnalysis, h]

theorem C4_stat_failure_witness :
    getSongAnalysis (fun _ _ => none)
      ⟨none, some ⟨1, 2, SongAnalysis.mk none [] none none, "t0"⟩, none, "t1"⟩ true =
      ⟨none, some ⟨1, 2, SongAnalysis.mk none [] none none, "t0"⟩, false⟩ :=
  C4_stat_failure (fun _ _ => none)
    ⟨none, some ⟨1, 2, SongAnalysis.mk none [] none none, "t0"⟩, none, "t1"⟩ true rfl

/-! ### Claim C9: cache serialization round-trip

writeCache serializes its payload with JSON.stringify and readCache parses
the file with JSON.parse and reads the fields structurally.  This is
modelled at the level of the JSON value tree: the encoder builds the tree
JSON.stringify renders (JSON.stringify omits undefined optional fields),
and the decoder reads back exactly the fields the source accesses, failing
on any shape mismatch. -/

/-- JSON value trees. -/
inductive Json where
  | null : Json
  | num : ℚ → Json
  | str : String → Json
  | arr : List Json → Json
  | obj : List (String × Json) → Json

/-- Encoding of one TempoSegment as written in the analysis payload. -/
def encodeSegment (s : TempoSegment) : Json :=
  Json.obj [("start", Json.num s.start), ("end", Json.num s.endTime),
    ("bpm", Json.num s.bpm)]

/-- The mode strings of the source. -/
def encodeMode : Mode → String
  | Mode.major => "major"
  | Mode.minor => "minor"

/-- Encoding of a KeyEstimate. -/
def encodeKey (k : KeyEstimate) : Json :=
  Json.obj [("tonic", Json.str k.tonic), ("mode", Json.str (encodeMode k.mode)),
    ("confidence", Json.num k.confidence)]

/-- Encoding of a SongAnalysis; an absent beatTimestamps field is omitted,
exactly as JSON.stringify drops undefined properties. -/
def encodeAnalysis (a : SongAnalysis) : Json :=
  Json.obj
    ([("bpm", match a.bpm with | none => Json.null | some b => Json.num b),
      ("bpmSegments", Json.arr (a.bpmSegments.map encodeSegment))] ++
      (match a.beatTimestamps with
        | none => []
        | some ts => [("beatTimestamps", Json.arr (ts.map Json.num))]) ++
      [("key", match a.key with | none => Json.null | some k => encodeKey k)])

/-- Encoding of the cache payload written by writeCache. -/
def encodeCacheEntry (c : AnalysisCache) : Json :=
  Json.obj [("audioMtimeMs", Json.num c.audioMtimeMs),
    ("audioSize", Json.num c.audioSize),
    ("analysis", encodeAnalysis c.analysis),
    ("createdAt", Json.str c.createdAt)]

/-- First field with the given name in a parsed object. -/
def getField : List (String × Json) → String → Option Json
  | [], _ => none
  | (k, v) :: rest, key => if k = key then some v else getField rest key

/-- Decode every element of a parsed array, failing on any element
failure. -/
def decodeList {α : Type} (dec : Json → Option α) : List Json → Option (List α)
  | [] => some []
  | x :: xs =>
    match dec x, decodeList dec xs with
    | some a, some rest => some (a :: rest)
    | _, _ => none

/-- Decode one segment record. -/
def decodeSegment : Json → Option TempoSegment
  | Json.obj fields =>
    match getField fields "start", getField fields "end", getField fields "bpm" with
    | some (Json.num s), some (Json.num e), some (Json.num b) => some ⟨s, e, b⟩
    | _, _, _ => none
  | _ => none

/-- Decode a mode string. -/
def decodeMode (s : String) : Option Mode :=
  if s = "major" then some Mode.major
  else if s = "minor" then some Mode.minor
  else none

/-- Decode the nullable key field. -/
def decodeKey : Json → Option (Option KeyEstimate)
  | Json.null => some none
  | Json.obj fields =>
    match getField fields "tonic", getField fields "mode",
        getField fields "confidence" with
    | some (Json.str t), some (Json.str m), some (Json.num c) =>
      match decodeMode m with
      | some mode => some (some ⟨t, mode, c⟩)
      | none => none
    | _, _, _ => none
  | _ => none

/-- Decode the nullable bpm field. -/
def decodeOptNum : Json → Option (Option ℚ)
  | Json.null => some none
  | Json.num q => some (some q)
  | _ => none

/-- Decode one plain number. -/
def decodeNum : Json → Option ℚ
  | Json.num q => some q
  | _ => none

/-- Decode a parsed analysis object. -/
def decodeAnalysis : Json → Option SongAnalysis
  | Json.obj fields =>
    match (getField fields "bpm").bind decodeOptNum,
        getField fields "bpmSegments", getField fields "key" with
    | some bpm, some (Json.arr segs), some jkey =>
      match decodeList decodeSegment segs, decodeKey jkey with
      | some segments, some key =>
        match getField fields "beatTimestamps" with
        | none => some ⟨bpm, segments, none, key⟩
        | some (Json.arr ts) =>
          match decodeList decodeNum ts with
          | some tsv => some ⟨bpm, segments, some tsv, key⟩
          | none => none
        | some _ => none
      | _, _ => none
    | _, _, _ => none
  | _ => none

/-- Decode a parsed cache file. -/
def decodeCacheEntry : Json → Option AnalysisCache
  | Json.obj fields =>
    match getField fields "audioMtimeMs", getField fields "audioSize",
        getField fields "analysis", getField fields "createdAt" with
    | some (Json.num m), some (Json.num s), some ja, some (Json.str t) =>
      match decodeAnalysis ja with
      | some a => some ⟨m, s, a, t⟩
      | none => none
    | _, _, _, _ => none
  | _ => none

theorem decodeSegment_encode (s : TempoSegment) :
    decodeSegment (encodeSegment s) = some s := rfl

theorem decodeList_encodeSegment (l : List TempoSegment) :
    decodeList decodeSegment (l.map encodeSegment) = some l := by
  induction l with
  | nil => rfl
  | cons s rest ih =>
    simp only [List.map_cons, decodeList, decodeSegment_encode s, ih]

theorem decodeList_num (l : List ℚ) :
    decodeList decodeNum (l.map Json.num) = some l := by
  induction l with
  | nil => rfl
  | cons q rest ih =>
    simp only [List.map_cons, decodeList, decodeNum, ih]

theorem decodeKey_encodeKey (k : KeyEstimate) :
    decodeKey (encodeKey k) = some (some k) := by
  rcases k with ⟨t, m, c⟩
  cases m <;> rfl

theorem decodeKey_null : decodeKey Json.null = some none := rfl

theorem decodeAnalysis_encode (a : SongAnalysis) :
    decodeAnalysis (encodeAnalysis a) = some a := by
  rcases a with ⟨bpm, segs, bts, key⟩
  cases bpm <;> cases bts <;> cases key <;>
    simp only [encodeAnalysis, decodeAnalysis, getField, List.cons_append, List.nil_append,
      List.singleton_append, String.reduceEq, reduceIte, decodeOptNum, Option.bind,
      decodeList_encodeSegment, decodeList_num, decodeKey_encodeKey, decodeKey_null]

/-- Claim C9: serializing a cache entry with writeCache's encoding and
reading it back with readCache's structural decoding reproduces the entry
field-for-field (for every SongAnalysis inside, including the optional
beatTimestamps list and the nullable bpm and key fields). -/
theorem C9_cache_roundtrip (c : AnalysisCache) :
    decodeCacheEntry (encodeCacheEntry c) = some c := by
  rcases c with ⟨m, s, a, t⟩
  simp only [encodeCacheEntry, decodeCacheEntry, getField, String.reduceEq, reduceIte,
    decodeAnalysis_encode]

/-! ### Key estimation: the template scan of estimateKey (lines 343 to 381) -/

/-- KEY_NAMES from audioAnalysis.ts. -/
def KEY_NAMES : List String :=
  ["C", "C#", "D"] ++ ["D#", "E", "F"] ++ ["F#", "G", "G#"] ++ ["A", "A#", "B"]

/-- dot from audioAnalysis.ts: sum of a[i] * b[i] for i below a.length. -/
def dot (a b : List ℚ) : ℚ :=
  (List.range a.length).foldl (fun sum i => sum + a.getD i 0 * b.getD i 0) 0

/-- The running state of the 24-template scan in estimateKey.  bestScore and
secondScore start at -Infinity, modelled as none. -/
structure ScanState where
  bestScore : Option ℚ
  secondScore : Option ℚ
  bestIndex : ℕ
  bestMode : Mode
deriving DecidableEq, Repr

/-- score > current where the current score may be -Infinity (none). -/
def scoreGt (score : ℚ) : Option ℚ → Bool
  | none => true
  | some b => decide (b < score)

/-- One iteration of the template loops of estimateKey: a new best demotes
the old best to second place; otherwise a score may still displace the
second place. -/
def scanStep (mode : Mode) (i : ℕ) (score : ℚ) (st : ScanState) : ScanState :=
  if scoreGt score st.bestScore then
    ⟨some score, st.bestScore, i, mode⟩
  else if scoreGt score st.secondScore then
    ⟨st.bestScore, some score, st.bestIndex, st.bestMode⟩
  else st

/-- The scan over one family of templates; the first argument of the
recursion is the running template index i. -/
def scanScores (mode : Mode) : ℕ → List ℚ → ScanState → ScanState
  | _, [], st => st
  | i, s :: rest, st => scanScores mode (i + 1) rest (scanStep mode i s st)

/-- The 12 template scores of one family (dot of the chroma vector with
each rotated template). -/
def templateScores (chroma : List ℚ) (t : ℕ → List ℚ) : List ℚ :=
  (List.range 12).map (fun i => dot chroma (t i))

/-- The initial scan state of estimateKey (lines 343 to 346). -/
def initScan : ScanState := ⟨none, none, 0, Mode.major⟩

/-- The full 24-template scan of estimateKey: the major loop, then the
minor loop continuing from its final state. -/
def keyScanState (chroma : List ℚ) (majT minT : ℕ → List ℚ) : ScanState :=
  scanScores Mode.minor 0 (templateScores chroma minT)
    (scanScores Mode.major 0 (templateScores chroma majT) initScan)

/-- The confidence computed at lines 372 to 375: the clamped relative gap
when the best score is positive and the second score is finite, else 0. -/
def scanConfidence (st : ScanState) : ℚ :=
  match st.bestScore, st.secondScore with
  | some b, some s => if 0 < b then max 0 (min 1 ((b - s) / b)) else 0
  | _, _ => 0

/-- The KeyEstimate assembled at lines 377 to 381 of estimateKey, with the
chroma vector and the (transcendentally normalized) template tables as
parameters. -/
def estimateKeyCore (chroma : List ℚ) (majT minT : ℕ → List ℚ) : KeyEstimate :=
  let st := keyScanState chroma majT minT
  ⟨KEY_NAMES.getD st.bestIndex "C", st.bestMode, roundTo (scanConfidence st) 3⟩

/-! ### Spec-side definitions for claim C7 (best and runner-up scores) -/

/-- The maximum of a list of scores, none on the empty list (spec side of
claim C7). -/
def maxScore : List ℚ → Option ℚ
  | [] => none
  | a :: rest =>
    match maxScore rest with
    | none => some a
    | some m => some (max a m)

/-- The runner-up of claim C7: the second-highest score, i.e. the maximum
after removing one copy of the best. -/
def runnerUp (l : List ℚ) : Option ℚ :=
  match maxScore l with
  | none => none
  | some m => maxScore (l.erase m)

/-- The confidence formula as the spec phrases it: clamp((best - runnerUp)
/ best, 0, 1) rounded to three decimals when best > 0, else 0. -/
def specConfidence (scores : List ℚ) : ℚ :=
  match maxScore scores, runnerUp scores with
  | some b, some s => if 0 < b then roundTo (max 0 (min 1 ((b - s) / b))) 3 else 0
  | _, _ => 0

/-! ### The scan computes the maximum and the runner-up -/

/-- The best/second part of one scan step, independent of index and mode. -/
def bsStep (s : ℚ) (p : Option ℚ × Option ℚ) : Option ℚ × Option ℚ :=
  if scoreGt s p.1 then (some s, p.1)
  else if scoreGt s p.2 then (p.1, some s)
  else p

/-- The best/second pair after scanning a whole score list. -/
def bsScan (l : List ℚ) (p : Option ℚ × Option ℚ) : Option ℚ × Option ℚ :=
  l.foldl (fun p s => bsStep s p) p

theorem scanScores_bs (mode : Mode) (l : List ℚ) (i : ℕ) (st : ScanState) :
    ((scanScores mode i l st).bestScore, (scanScores mode i l st).secondScore) =
      bsScan l (st.bestScore, st.secondScore) := by
  induction l generalizing i st with
  | nil => rfl
  | cons s rest ih =>
    have hstep : ((scanStep mode i s st).bestScore, (scanStep mode i s st).secondScore) =
        bsStep s (st.bestScore, st.secondScore) := by
      by_cases h1 : scoreGt s st.bestScore = true
      · simp [scanStep, bsStep, h1]
      · by_cases h2 : scoreGt s st.secondScore = true
        · simp [scanStep, bsStep, h1, h2]
        · simp [scanStep, bsStep, h1, h2]
    calc ((scanScores mode (i + 1) rest (scanStep mode i s st)).bestScore,
          (scanScores mode (i + 1) rest (scanStep mode i s st)).secondScore)
        = bsScan rest ((scanStep mode i s st).bestScore, (scanStep mode i s st).secondScore) :=
          ih (i + 1) (scanStep mode i s st)
      _ = bsScan rest (bsStep s (st.bestScore, st.secondScore)) := by rw [hstep]
      _ = bsScan (s :: rest) (st.bestScore, st.secondScore) := rfl

theorem maxScore_eq_none (l : List ℚ) (h : maxScore l = none) : l = [] := by
  cases l with
  | nil => rfl
  | cons a l =>
    simp only [maxScore] at h
    cases hml : maxScore l <;> rw [hml] at h <;> simp at h

theorem maxScore_mem (l : List ℚ) (m : ℚ) (h : maxScore l = some m) : m ∈ l := by
  induction l generalizing m with
  | nil => simp [maxScore] at h
  | cons a l ih =>
    simp only [maxScore] at h
    cases hml : maxScore l with
    | none =>
      rw [hml] at h
      cases h
      exact List.mem_cons_self a l
    | some k =>
      rw [hml] at h
      cases h
      rcases max_choice a k with hc | hc <;> rw [hc]
      · exact List.mem_cons_self a l
      · exact List.mem_cons_of_mem a (ih k hml)

theorem le_maxScore (l : List ℚ) (m : ℚ) (h : maxScore l = some m) :
    ∀ x ∈ l, x ≤ m := by
  induction l generalizing m with
  | nil => intro x hx; simp at hx
  | cons a l ih =>
    intro x hx
    simp only [maxScore] at h
    cases hml : maxScore l with
    | none =>
      rw [hml] at h
      cases h
      have : l = [] := maxScore_eq_none l hml
      subst this
      rcases List.mem_singleton.mp hx with rfl
      exact le_refl x
    | some k =>
      rw [hml] at h
      cases h
      rcases List.mem_cons.mp hx with rfl | hxl
      · exact le_max_left x k
      · exact le_trans (ih k hml x hxl) (le_max_right a k)

theorem maxScore_concat (l : List ℚ) (a : ℚ) :
    maxScore (l ++ [a]) = some ((maxScore l).elim a (fun m => max m a)) := by
  induction l with
  | nil => rfl
  | cons b l ih =>
    cases hml : maxScore l with
    | none =>
      rw [hml] at ih
      simp only [Option.elim] at ih
      simp only [List.cons_append, maxScore, List.append_eq, ih, hml, Option.elim]
    | some m =>
      rw [hml] at ih
      simp only [Option.elim] at ih
      simp only [List.cons_append, maxScore, List.append_eq, ih, hml, Option.elim]
      rw [max_assoc]

theorem bsScan_spec (l : List ℚ) :
    bsScan l (none, none) = (maxScore l, runnerUp l) := by
  induction l using List.reverseRecOn with
  | nil => rfl
  | append_singleton l a ih =>
    have hsplit : bsScan (l ++ [a]) (none, none) = bsStep a (bsScan l (none, none)) := by
      simp only [bsScan, List.foldl_append, List.foldl_cons, List.foldl_nil]
    rw [hsplit, ih]
    cases hml : maxScore l with
    | none =>
      have : l = [] := maxScore_eq_none l hml
      subst this
      simp only [runnerUp, hml, List.nil_append]
      simp [bsStep, scoreGt, maxScore, runnerUp, List.erase_cons_head]
    | some M =>
      have hMmem : M ∈ l := maxScore_mem l M hml
      have hRU : runnerUp l = maxScore (l.erase M) := by rw [runnerUp, hml]
      by_cases hMa : M < a
      · -- a becomes the new best, M the runner-up
        have hnotmem : a ∉ l := fun hmem => absurd (le_maxScore l M hml a hmem) (not_le.mpr hMa)
        have hmax : maxScore (l ++ [a]) = some a := by
          rw [maxScore_concat, hml]
          simp [Option.elim, max_eq_right (le_of_lt hMa)]
        have herase : (l ++ [a]).erase a = l := by
          rw [List.erase_append_right _ hnotmem, List.erase_cons_head, List.append_nil]
        have hru2 : runnerUp (l ++ [a]) = some M := by
          rw [runnerUp, hmax]
          show maxScore ((l ++ [a]).erase a) = some M
          rw [herase, hml]
        rw [hmax, hru2, bsStep]
        simp [scoreGt, hMa]
      · -- the best stays M
        have haM : a ≤ M := not_lt.mp hMa
        have hmax : maxScore (l ++ [a]) = some M := by
          rw [maxScore_concat, hml]
          simp [Option.elim, max_eq_left haM]
        have herase : (l ++ [a]).erase M = l.erase M ++ [a] :=
          List.erase_append_left _ hMmem
        have hru2 : runnerUp (l ++ [a]) = some ((maxScore (l.erase M)).elim a (fun m => max m a)) := by
          rw [runnerUp, hmax]
          show maxScore ((l ++ [a]).erase M) = _
          rw [herase, maxScore_concat]
        rw [hmax, hru2, hRU]
        cases hms : maxScore (l.erase M) with
        | none =>
          simp only [Option.elim]
          rw [bsStep]
          simp [scoreGt, hMa]
        | some S =>
          simp only [Option.elim]
          by_cases hSa : S < a
          · rw [bsStep]
            simp [scoreGt, hMa, hSa, max_eq_right (le_of_lt hSa)]
          · rw [bsStep]
            simp [scoreGt, hMa, hSa, max_eq_left (not_lt.mp hSa)]

theorem keyScanState_bs (chroma : List ℚ) (majT minT : ℕ → List ℚ) :
    ((keyScanState chroma majT minT).bestScore,
        (keyScanState chroma majT minT).secondScore) =
      (maxScore (templateScores chroma majT ++ templateScores chroma minT),
        runnerUp (templateScores chroma majT ++ templateScores chroma minT)) := by
  calc ((keyScanState chroma majT minT).bestScore,
        (keyScanState chroma majT minT).secondScore)
      = bsScan (templateScores chroma minT)
          ((scanScores Mode.major 0 (templateScores chroma majT) initScan).bestScore,
            (scanScores Mode.major 0 (templateScores chroma majT) initScan).secondScore) :=
        scanScores_bs _ _ _ _
    _ = bsScan (templateScores chroma minT)
          (bsScan (templateScores chroma majT) (none, none)) := by
        rw [scanScores_bs]
        rfl
    _ = bsScan (templateScores chroma majT ++ templateScores chroma minT) (none, none) := by
        simp [bsScan, List.foldl_append]
    _ = _ := bsScan_spec _

theorem roundTo_zero (d : ℕ) : roundTo 0 d = 0 := by
  rw [roundTo, ratRound_eq]
  norm_num

theorem roundTo_mem (c : ℚ) (h0 : 0 ≤ c) (h1 : c ≤ 1) (d : ℕ) :
    0 ≤ roundTo c d ∧ roundTo c d ≤ 1 := by
  have hp : (0 : ℚ) < 10 ^ d := by positivity
  rw [roundTo, ratRound_eq, round_eq]
  constructor
  · apply div_nonneg _ (le_of_lt hp)
    have h : (0 : ℤ) ≤ ⌊c * 10 ^ d + 1 / 2⌋ := by
      rw [Int.le_floor]
      push_cast
      nlinarith
    exact_mod_cast h
  · rw [div_le_one hp]
    have h2 : ⌊c * 10 ^ d + 1 / 2⌋ ≤ ⌊(10 ^ d : ℚ) + 1 / 2⌋ := by
      apply Int.floor_le_floor
      nlinarith
    have h3 : ⌊(10 ^ d : ℚ) + 1 / 2⌋ = 10 ^ d := by
      rw [show ((10 : ℚ) ^ d) = (((10 : ℤ) ^ d : ℤ) : ℚ) by push_cast; ring]
      rw [add_comm, Int.floor_add_int]
      norm_num
    calc ((⌊c * 10 ^ d + 1 / 2⌋ : ℤ) : ℚ) ≤ ((⌊(10 ^ d : ℚ) + 1 / 2⌋ : ℤ) : ℚ) := by
          exact_mod_cast h2
      _ = ((10 ^ d : ℤ) : ℚ) := by rw [h3]
      _ = 10 ^ d := by push_cast; ring

theorem scanConfidence_mem (st : ScanState) :
    0 ≤ scanConfidence st ∧ scanConfidence st ≤ 1 := by
  cases hb : st.bestScore with
  | none => simp [scanConfidence, hb]
  | some b =>
    cases hs : st.secondScore with
    | none => simp [scanConfidence, hb, hs]
    | some s =>
      simp only [scanConfidence, hb, hs]
      split_ifs with h
      · constructor
        · exact le_max_left 0 _
        · exact max_le (by norm_num) (min_le_left 1 _)
      · norm_num

/-- Claim C7: on every chroma vector the key estimator's confidence equals
clamp((best - runnerUp) / best, 0, 1) rounded to three decimals when the
best of the 24 template scores is positive and 0 otherwise, where runnerUp
is the second-highest of the 24 scores; consequently the confidence always
lies in [0, 1]. -/
theorem C7_confidence (chroma : List ℚ) (majT minT : ℕ → List ℚ) :
    (estimateKeyCore chroma majT minT).confidence =
      specConfidence (templateScores chroma majT ++ templateScores chroma minT) ∧
    0 ≤ (estimateKeyCore chroma majT minT).confidence ∧
    (estimateKeyCore chroma majT minT).confidence ≤ 1 := by
  have hbs := keyScanState_bs chroma majT minT
  have hb : (keyScanState chroma majT minT).bestScore =
      maxScore (templateScores chroma majT ++ templateScores chroma minT) :=
    congrArg Prod.fst hbs
  have hs : (keyScanState chroma majT minT).secondScore =
      runnerUp (templateScores chroma majT ++ templateScores chroma minT) :=
    congrArg Prod.snd hbs
  have hconf : (estimateKeyCore chroma majT minT).confidence =
      roundTo (scanConfidence (keyScanState chroma majT minT)) 3 := rfl
  have hcm := scanConfidence_mem (keyScanState chroma majT minT)
  refine ⟨?_, ?_⟩
  · rw [hconf]
    cases hmx : maxScore (templateScores chroma majT ++ templateScores chroma minT) with
    | none =>
      have hb2 : (keyScanState chroma majT minT).bestScore = none := by rw [hb, hmx]
      simp only [scanConfidence, hb2, specConfidence, hmx]
      exact roundTo_zero 3
    | some b =>
      cases hru : runnerUp (templateScores chroma majT ++ templateScores chroma minT) with
      | none =>
        have hb2 : (keyScanState chroma majT minT).bestScore = some b := by rw [hb, hmx]
        have hs2 : (keyScanState chroma majT minT).secondScore = none := by rw [hs, hru]
        simp only [scanConfidence, hb2, hs2, specConfidence, hmx, hru]
        exact roundTo_zero 3
      | some s =>
        have hb2 : (keyScanState chroma majT minT).bestScore = some b := by rw [hb, hmx]
        have hs2 : (keyScanState chroma majT minT).secondScore = some s := by rw [hs, hru]
        simp only [scanConfidence, hb2, hs2, specConfidence, hmx, hru]
        split_ifs with h
        · rfl
        · exact roundTo_zero 3
  · rw [hconf]
    exact roundTo_mem _ hcm.1 hcm.2 3

/-! ### The key estimator's spectral pipeline (claims C7/C8) -/

/-- Constant KEY_FRAME_SIZE from audioAnalysis.ts. -/
def KEY_FRAME_SIZE : ℕ := 4096

/-- Constant KEY_HOP_SIZE from audioAnalysis.ts. -/
def KEY_HOP_SIZE : ℕ := 2048

/-- Constant KEY_MIN_FREQ from audioAnalysis.ts. -/
def KEY_MIN_FREQ : ℚ := 60

/-- Constant KEY_MAX_FREQ from audioAnalysis.ts. -/
def KEY_MAX_FREQ : ℚ := 5000

/-- Constant KEY_MAX_SECONDS from audioAnalysis.ts. -/
def KEY_MAX_SECONDS : ℚ := 120

/-- normalizeVector from audioAnalysis.ts, with the irrational square root
as a function parameter: null when the sum of squares is zero (the JS
truthiness test !sumSquares), else every entry scaled by
1 / sqrt(sumSquares). -/
def normalizeVector (sqrtFn : ℚ → ℚ) (values : List ℚ) : Option (List ℚ) :=
  let sumSquares := values.foldl (fun sum v => sum + v * v) 0
  if sumSquares = 0 then none
  else some (values.map (fun v => v * (1 / sqrtFn sumSquares)))

/-- The inner bin loop of estimateKey (lines 324 to 335): for every bin
from 1 to KEY_FRAME_SIZE/2 - 1 whose frequency lies inside
[KEY_MIN_FREQ, KEY_MAX_FREQ], add the squared magnitude to the bin's pitch
class; the transcendental bin-to-pitch-class map (rounded midi mod 12) is
the parameter pcOf. -/
def chromaAccum (pcOf : ℕ → ℕ) (spectrum : List ℚ) (rate : ℚ)
    (chroma : List ℚ) : List ℚ :=
  (List.range' 1 (KEY_FRAME_SIZE / 2 - 1)).foldl
    (fun ch bin =>
      let real := spectrum.getD (bin * 2) 0
      let imag := spectrum.getD (bin * 2 + 1) 0
      let magnitude := real * real + imag * imag
      let freq := (bin : ℚ) * rate / (KEY_FRAME_SIZE : ℚ)
      if freq < KEY_MIN_FREQ ∨ KEY_MAX_FREQ < freq then ch
      else ch.set (pcOf bin) (ch.getD (pcOf bin) 0 + magnitude))
    chroma

/-- estimateKey from audioAnalysis.ts (lines 307 to 381), with its
transcendental ingredients as parameters: dft is the FFT of one windowed
frame (realTransform plus completeSpectrum, an interleaved complex array of
length 2 * KEY_FRAME_SIZE), pcOf the rounded-midi pitch class of one bin,
hann the Hann window table, sqrtFn the square root, majT and minT the
normalized rotated template tables. -/
def estimateKey (dft : List ℚ → List ℚ) (pcOf : ℕ → ℕ) (hann : ℕ → ℚ)
    (sqrtFn : ℚ → ℚ) (majT minT : ℕ → List ℚ) (samples : SampleBuf)
    (rate : ℚ) : Option KeyEstimate :=
  let maxSamples : ℕ := min samples.len (ratFloor (KEY_MAX_SECONDS * rate)).toNat
  if maxSamples < KEY_FRAME_SIZE then none else
  let chroma := (windowStartList maxSamples KEY_FRAME_SIZE KEY_HOP_SIZE).foldl
    (fun ch start =>
      chromaAccum pcOf
        (dft ((List.range KEY_FRAME_SIZE).map (fun i => samples.get (start + i) * hann i)))
        rate ch)
    (List.replicate 12 0)
  match normalizeVector sqrtFn chroma with
  | none => none
  | some chromaVector => some (estimateKeyCore chromaVector majT minT)

/-! ### Zero-buffer propagation (claim C8) -/

/-- An all-zero sample buffer of the given length. -/
def zeroBuf (n : ℕ) : SampleBuf := ⟨n, fun _ => 0⟩

/-- A left fold preserves any invariant its step preserves. -/
theorem foldl_invariant {α β : Type} (f : α → β → α) (P : α → Prop)
    (hP : ∀ a b, P a → P (f a b)) :
    ∀ (l : List β) (a : α), P a → P (l.foldl f a)
  | [], _, h => h
  | b :: l, a, h => foldl_invariant f P hP l (f a b) (hP a b h)

theorem foldl_sq_zero (b : SampleBuf) (hz : ∀ i, b.get i = 0) (offset : ℕ) :
    ∀ (l : List ℕ) (acc : ℚ),
      l.foldl (fun s i => s + b.get (offset + i) * b.get (offset + i)) acc = acc
  | [], _ => rfl
  | x :: l, acc => by
    rw [List.foldl_cons, hz (offset + x), mul_zero, add_zero]
    exact foldl_sq_zero b hz offset l acc

theorem sumSquaresRange_zero (b : SampleBuf) (hz : ∀ i, b.get i = 0)
    (offset count : ℕ) : sumSquaresRange b offset count = 0 :=
  foldl_sq_zero b hz offset (List.range count) 0

theorem frameEnergies_zero (b : SampleBuf) (hz : ∀ i, b.get i = 0)
    (fc fs hop : ℕ) : frameEnergies b fc fs hop = List.replicate fc 0 := by
  rw [frameEnergies]
  have h : (List.range fc).map (fun frame => sumSquaresRange b (frame * hop) fs) =
      (List.range fc).map (fun _ => (0 : ℚ)) :=
    List.map_congr_left (fun x _ => sumSquaresRange_zero b hz (x * hop) fs)
  rw [h, List.map_const', List.length_range]

theorem zipWith_zero (f : ℚ → ℚ → ℚ) (hf : f 0 0 = 0) :
    ∀ n m : ℕ, List.zipWith f (List.replicate n 0) (List.replicate m 0) =
      List.replicate (min n m) 0
  | 0, m => by simp
  | n + 1, 0 => by simp
  | n + 1, m + 1 => by
    rw [List.replicate_succ, List.replicate_succ (n := m), List.zipWith_cons_cons,
      hf, zipWith_zero f hf n m, Nat.succ_min_succ, List.replicate_succ]

theorem rawOnset_replicate_zero (n : ℕ) :
    rawOnset (List.replicate n (0 : ℚ)) = List.replicate (n - 1) 0 := by
  rw [rawOnset, List.tail_replicate]
  rw [zipWith_zero (fun prev next => if next - prev > 0 then next - prev else 0)
    (by norm_num) n (n - 1), Nat.min_eq_right (Nat.sub_le n 1)]

theorem onsetSignal_replicate_zero (n : ℕ) :
    onsetSignal (List.replicate n (0 : ℚ)) = List.replicate (n - 1) 0 := by
  simp [onsetSignal, rawOnset_replicate_zero, List.sum_replicate, List.map_replicate]

theorem autocorrAt_replicate_zero (k lag : ℕ) :
    autocorrAt (List.replicate k (0 : ℚ)) lag = 0 := by
  rw [autocorrAt, List.drop_replicate,
    zipWith_zero (fun a c => a * c) (by norm_num) (k - lag) k, List.sum_replicate]
  simp

theorem bestLagFold_replicate_zero (k : ℕ) (lags : List ℕ) :
    bestLagFold (List.replicate k (0 : ℚ)) lags = (0, 0) := by
  rw [bestLagFold]
  refine foldl_invariant _ (fun p => p = ((0 : ℕ), (0 : ℚ))) ?_ lags _ rfl
  intro p lag hp
  subst hp
  show (if ((0 : ℕ), (0 : ℚ)).2 < autocorrAt (List.replicate k 0) lag then
      (lag, autocorrAt (List.replicate k 0) lag) else ((0 : ℕ), (0 : ℚ))) = ((0 : ℕ), (0 : ℚ))
  rw [autocorrAt_replicate_zero]
  norm_num

theorem tempoFromEnergies_replicate_zero (n : ℕ) (rate : ℚ) :
    tempoFromEnergies (List.replicate n (0 : ℚ)) rate = none := by
  simp only [tempoFromEnergies, onsetSignal_replicate_zero, bestLagFold_replicate_zero,
    if_true]

theorem estimateTempo_zero (b : SampleBuf) (hz : ∀ i, b.get i = 0) (rate : ℚ) :
    estimateTempo b rate = none := by
  rw [estimateTempo]
  split_ifs with h1
  · rfl
  · show (if (b.len - 1024) / 512 + 1 ≤ 2 then none
      else tempoFromEnergies (frameEnergies b ((b.len - 1024) / 512 + 1) 1024 512) rate) = none
    split_ifs with h2
    · rfl
    · rw [frameEnergies_zero b hz, tempoFromEnergies_replicate_zero]

theorem windowSegment_zero (b : SampleBuf) (hz : ∀ i, b.get i = 0)
    (rate : ℚ) (w start : ℕ) : windowSegment b rate w start = none := by
  rw [windowSegment, estimateTempo_zero _ (fun i => hz (start + i)) rate]

theorem rawTempoSegments_zero (b : SampleBuf) (hz : ∀ i, b.get i = 0)
    (rate : ℚ) : rawTempoSegments b rate = [] := by
  rw [rawTempoSegments]
  split_ifs with h
  · rfl
  · exact List.filterMap_eq_nil_iff.mpr (fun a _ => windowSegment_zero b hz rate _ a)

theorem buildTempoSegments_zero (b : SampleBuf) (hz : ∀ i, b.get i = 0)
    (rate : ℚ) : buildTempoSegments b rate = [] := by
  rw [buildTempoSegments, rawTempoSegments_zero b hz rate]
  rfl

theorem set_replicate_self {α : Type} (a : α) :
    ∀ (n m : ℕ), (List.replicate n a).set m a = List.replicate n a
  | 0, _ => rfl
  | _ + 1, 0 => rfl
  | n + 1, m + 1 => by
    rw [List.replicate_succ, List.set_cons_succ, set_replicate_self a n m]

theorem getD_replicate_zero : ∀ (n i : ℕ), (List.replicate n (0 : ℚ)).getD i 0 = 0
  | 0, _ => rfl
  | _ + 1, 0 => rfl
  | n + 1, i + 1 => getD_replicate_zero n i

theorem chromaAccum_zero (pcOf : ℕ → ℕ) (rate : ℚ) (m : ℕ) :
    chromaAccum pcOf (List.replicate m (0 : ℚ)) rate (List.replicate 12 0) =
      List.replicate 12 0 := by
  rw [chromaAccum]
  refine foldl_invariant _ (fun ch => ch = List.replicate 12 0) ?_ _ _ rfl
  intro ch bin hch
  subst hch
  simp only [getD_replicate_zero, mul_zero, zero_mul, add_zero, zero_add,
    set_replicate_self, ite_self]

theorem normalizeVector_zero (sqrtFn : ℚ → ℚ) :
    normalizeVector sqrtFn (List.replicate 12 0) = none := rfl

theorem estimateKey_zero (dft : List ℚ → List ℚ) (pcOf : ℕ → ℕ) (hann : ℕ → ℚ)
    (sqrtFn : ℚ → ℚ) (majT minT : ℕ → List ℚ) (b : SampleBuf)
    (hz : ∀ i, b.get i = 0) (rate : ℚ)
    (hdft : dft (List.replicate KEY_FRAME_SIZE 0) =
      List.replicate (2 * KEY_FRAME_SIZE) 0) :
    estimateKey dft pcOf hann sqrtFn majT minT b rate = none := by
  rw [estimateKey]
  split_ifs with h
  · rfl
  · have hframe : ∀ start : ℕ,
        (List.range KEY_FRAME_SIZE).map (fun i => b.get (start + i) * hann i) =
          List.replicate KEY_FRAME_SIZE 0 := by
      intro start
      have h1 : (List.range KEY_FRAME_SIZE).map (fun i => b.get (start + i) * hann i) =
          (List.range KEY_FRAME_SIZE).map (fun _ => (0 : ℚ)) :=
        List.map_congr_left (fun i _ => by rw [hz (start + i), zero_mul])
      rw [h1, List.map_const', List.length_range]
    have hfold : ∀ (starts : List ℕ),
        starts.foldl
          (fun ch start =>
            chromaAccum pcOf
              (dft ((List.range KEY_FRAME_SIZE).map (fun i => b.get (start + i) * hann i)))
              rate ch)
          (List.replicate 12 0) = List.replicate 12 0 := by
      intro starts
      refine foldl_invariant _ (fun ch => ch = List.replicate 12 0) ?_ _ _ rfl
      intro ch start hch
      subst hch
      rw [hframe, hdft, chromaAccum_zero]
    simp only [hfold, normalizeVector_zero]

/-- Claim C8: an all-zero sample buffer of any length yields an analysis
with bpm null, bpmSegments empty and key null (and, the code being total,
no exception); the only fact assumed about the opaque FFT is that it sends
the zero frame to the zero spectrum. -/
theorem C8_zero_buffer (n : ℕ) (dft : List ℚ → List ℚ) (pcOf : ℕ → ℕ)
    (hann : ℕ → ℚ) (sqrtFn : ℚ → ℚ) (majT minT : ℕ → List ℚ)
    (hdft : dft (List.replicate KEY_FRAME_SIZE 0) =
      List.replicate (2 * KEY_FRAME_SIZE) 0) :
    mkSongAnalysis (estimateKey dft pcOf hann sqrtFn majT minT) (zeroBuf n) =
      { bpm := none, bpmSegments := [], beatTimestamps := none, key := none } := by
  have hz : ∀ i, (zeroBuf n).get i = 0 := fun _ => rfl
  have hseg : buildTempoSegments (zeroBuf n) SAMPLE_RATE = [] :=
    buildTempoSegments_zero _ hz _
  have hkey : estimateKey dft pcOf hann sqrtFn majT minT (zeroBuf n) SAMPLE_RATE = none :=
    estimateKey_zero _ _ _ _ _ _ _ hz _ hdft
  have het : estimateTempo (zeroBuf n) SAMPLE_RATE = none := estimateTempo_zero _ hz _
  simp only [mkSongAnalysis, hseg, hkey]
  rw [overallBpm_nil, het]
  rfl

theorem C8_zero_buffer_witness :
    (fun _ : List ℚ => List.replicate (2 * KEY_FRAME_SIZE) (0 : ℚ))
        (List.replicate KEY_FRAME_SIZE 0) = List.replicate (2 * KEY_FRAME_SIZE) 0 ∧
    mkSongAnalysis
        (estimateKey (fun _ => List.replicate (2 * KEY_FRAME_SIZE) 0) (fun _ => 0)
          (fun _ => 1) (fun q => q) (fun _ => []) (fun _ => []))
        (zeroBuf 4) =
      { bpm := none, bpmSegments := [], beatTimestamps := none, key := none } :=
  ⟨rfl, C8_zero_buffer 4 _ _ _ _ _ _ rfl⟩

end MusicAnalysis
